import Mathlib

/-!
Verification of the Tensor Product Codes pipeline: the two-generator binary
ring, the cyclic group algebra GF(2)[Z_L], the regular-representation lift to
binary circulant matrices, the hypergraph product (HGP) construction of CSS
parity-check matrices, and the lifted product code (LPC) pipeline.

Conventions of the embedding:
* `numpy` uint8 vectors are `List Nat`; the constructors reduce entries with
  uint8 wraparound (mod 256) followed by `% 2`, exactly as
  `np.array(coeffs, dtype=np.uint8) % 2` does.
* elementwise `^` (XOR) on equal-length uint8 arrays is `List.zipWith (^^^)`.
* binary matrices handed to the HGP stage are `Matrix (Fin m) (Fin n) (ZMod 2)`;
  all downstream uses of those matrices in the source (Kronecker products,
  CSS product checks, GF(2) rank) depend only on entries mod 2, and uint8
  wraparound (mod 256) never changes a value mod 2.
* a Python `raise` inside a constructor is `Except.error` with the source's
  message.
-/

open Matrix

/-- uint8 wraparound of a Python integer, as performed by
`np.array(_, dtype=np.uint8)`. -/
def uint8OfInt (c : Int) : Nat := (c % 256).toNat

/-- Truth value of a numpy uint8 scalar under `if c:`, as an element of GF(2)
(the stored coefficients are 0/1, where nonzero means the term is present). -/
def bitZ (c : Nat) : ZMod 2 := if c = 0 then 0 else 1

/-- `RingElement`: binary coefficient vector over the two ring generators. -/
structure RingElement where
  coeffs : List Nat
deriving DecidableEq, Repr

/-- `RingElement.__init__`: `self.coeffs = np.array(coeffs, dtype=np.uint8) % 2`. -/
def RingElement.ofInts (cs : List Int) : RingElement :=
  ⟨cs.map (fun c => uint8OfInt c % 2)⟩

/-- `RingElement.__add__`: elementwise XOR of the coefficient vectors. -/
def RingElement.add (a b : RingElement) : RingElement :=
  ⟨List.zipWith (fun x y => x ^^^ y) a.coeffs b.coeffs⟩

/-- `multiply(a, b)`: `ax, ay = a.coeffs; bx, by = b.coeffs;`
`c = (ax & by) ^ (ay & bx); return RingElement([c, c])`
(two-generator unpacking read off positionally). -/
def multiply (a b : RingElement) : RingElement :=
  let ax := a.coeffs.getD 0 0
  let ay := a.coeffs.getD 1 0
  let bx := b.coeffs.getD 0 0
  let bY := b.coeffs.getD 1 0
  let c := (ax &&& bY) ^^^ (ay &&& bx)
  RingElement.ofInts [(c : Int), (c : Int)]

/-- `RingMatrix`: grid of ring elements (numpy object array). -/
structure RingMatrix where
  data : List (List RingElement)
deriving DecidableEq, Repr

/-- `self.data.shape[0]` of a rectangular object array. -/
def RingMatrix.rows (M : RingMatrix) : Nat := M.data.length

/-- `self.data.shape[1]` of a rectangular object array. -/
def RingMatrix.cols (M : RingMatrix) : Nat := (M.data.headD []).length

/-- `self.data[i, j]` (in-bounds access on a rectangular array). -/
def RingMatrix.get (M : RingMatrix) (i j : Nat) : RingElement :=
  (M.data.getD i []).getD j ⟨[]⟩

/-- `RingMatrix.__matmul__`: dimension check, then the triple loop
`s = s + multiply(self.data[i, k], other.data[k, j])` starting from
`zero = RingElement([0] * len(self.data[0,0].coeffs))`. -/
def ringMatMul (A B : RingMatrix) : Except String RingMatrix :=
  if A.cols ≠ B.rows then Except.error "Dimension mismatch" else
  let zero : RingElement := ⟨List.replicate (A.get 0 0).coeffs.length 0⟩
  Except.ok ⟨(List.range A.rows).map (fun i => (List.range B.cols).map (fun j =>
    (List.range A.cols).foldl
      (fun s k => RingElement.add s (multiply (A.get i k) (B.get k j))) zero))⟩

/-- `RingMatrix.is_zero`: every entry's coefficient vector is all-zero. -/
def RingMatrix.isZero (M : RingMatrix) : Bool :=
  M.data.all (fun row => row.all (fun e => e.coeffs.all (fun v => v == 0)))

/-- `GroupAlgebraElement`: binary coefficient vector over the cyclic group of
order `n` (an element of GF(2)[Z_n]). -/
structure GroupAlgebraElement where
  coeffs : List Nat
  n : Nat
deriving DecidableEq, Repr

/-- `GroupAlgebraElement.__init__`:
`self.coeffs = np.array(coeffs, dtype=np.uint8) % 2; self.n = group_size`. -/
def GroupAlgebraElement.ofInts (cs : List Int) (group_size : Nat) :
    GroupAlgebraElement :=
  ⟨cs.map (fun c => uint8OfInt c % 2), group_size⟩

/-- `GroupAlgebraElement.__add__`: elementwise XOR, same group order. -/
def GroupAlgebraElement.add (a b : GroupAlgebraElement) : GroupAlgebraElement :=
  ⟨List.zipWith (fun x y => x ^^^ y) a.coeffs b.coeffs, a.n⟩

/-- One statement `result[(i + j) % self.n] ^= 1` of the convolution loop. -/
def applyToggle (l : List Nat) (t : Nat) : List Nat :=
  l.set t ((l.getD t 0) ^^^ 1)

/-- `GroupAlgebraElement.__mul__`: cyclic convolution modulo `n`; for every
pair of set coefficients, toggle position `(i + j) % n` of an all-zero
accumulator (`for i, a in enumerate(...)` is indexing over `range`). -/
def GroupAlgebraElement.mul (a b : GroupAlgebraElement) : GroupAlgebraElement :=
  ⟨(List.range a.coeffs.length).foldl (fun acc i =>
      if a.coeffs.getD i 0 ≠ 0 then
        (List.range b.coeffs.length).foldl (fun acc2 j =>
          if b.coeffs.getD j 0 ≠ 0 then applyToggle acc2 ((i + j) % a.n) else acc2)
          acc
      else acc)
    (List.replicate a.n 0), a.n⟩

/-- `GroupAlgebraMatrix`: grid of group-algebra elements. -/
structure GroupAlgebraMatrix where
  data : List (List GroupAlgebraElement)
deriving DecidableEq, Repr

/-- `self.data.shape[0]`. -/
def GroupAlgebraMatrix.rows (M : GroupAlgebraMatrix) : Nat := M.data.length

/-- `self.data.shape[1]`. -/
def GroupAlgebraMatrix.cols (M : GroupAlgebraMatrix) : Nat :=
  (M.data.headD []).length

/-- `self.data[i, j]`. -/
def GroupAlgebraMatrix.get (M : GroupAlgebraMatrix) (i j : Nat) :
    GroupAlgebraElement :=
  (M.data.getD i []).getD j ⟨[], 0⟩

/-- `self.data[0,0].n`: the group order read off the first element. -/
def GroupAlgebraMatrix.L0 (M : GroupAlgebraMatrix) : Nat := (M.get 0 0).n

/-- `GroupAlgebraMatrix.__matmul__`: dimension check, then the triple loop
`s = s + (self.data[i,k] * other.data[k,j])` starting from
`zero = GroupAlgebraElement([0]*L, L)` with `L = self.data[0,0].n`. -/
def gaMatMul (A B : GroupAlgebraMatrix) : Except String GroupAlgebraMatrix :=
  if A.cols ≠ B.rows then Except.error "Dimension mismatch" else
  let L := A.L0
  let zero : GroupAlgebraElement := ⟨List.replicate L 0, L⟩
  Except.ok ⟨(List.range A.rows).map (fun i => (List.range B.cols).map (fun j =>
    (List.range A.cols).foldl
      (fun s k => GroupAlgebraElement.add s (GroupAlgebraElement.mul (A.get i k) (B.get k j)))
      zero))⟩

/-- `GroupAlgebraMatrix.is_zero`. -/
def GroupAlgebraMatrix.isZero (M : GroupAlgebraMatrix) : Bool :=
  M.data.all (fun row => row.all (fun e => e.coeffs.all (fun v => v == 0)))

/-- `RingLifter`: holds the ordered generator images. -/
structure RingLifter where
  images : List GroupAlgebraElement
deriving DecidableEq, Repr

/-- `self.L = generator_images[0].n`. -/
def RingLifter.L (lf : RingLifter) : Nat := (lf.images.headD ⟨[], 0⟩).n

/-- `RingLifter.lift`: starting from the zero group-algebra element, XOR in
the image of each generator whose coefficient is set;
`zip(ring_element.coeffs, self.images)` truncates to the shorter list. -/
def RingLifter.lift (lf : RingLifter) (ring_element : RingElement) :
    GroupAlgebraElement :=
  (ring_element.coeffs.zip lf.images).foldl
    (fun result ci => if ci.1 ≠ 0 then GroupAlgebraElement.add result ci.2 else result)
    ⟨List.replicate lf.L 0, lf.L⟩

/-- `cyclic_permutation(k, L)`: `P[i, (i + k) % L] = 1`, all other entries 0. -/
def cyclic_permutation (k L : Nat) : List (List Nat) :=
  (List.range L).map (fun i => (List.range L).map (fun j =>
    if (i + k) % L = j then 1 else 0))

/-- Elementwise XOR of two binary matrices (`M ^= P`). -/
def matXor (M N : List (List Nat)) : List (List Nat) :=
  List.zipWith (List.zipWith (fun x y => x ^^^ y)) M N

/-- `lift_ga_element(ga)`: XOR-sum of cyclic permutation matrices over the set
coefficients, starting from `np.zeros((ga.n, ga.n))`. -/
def lift_ga_element (ga : GroupAlgebraElement) : List (List Nat) :=
  (List.range ga.coeffs.length).foldl
    (fun M k => if ga.coeffs.getD k 0 ≠ 0 then matXor M (cyclic_permutation k ga.n) else M)
    (List.replicate ga.n (List.replicate ga.n 0))

/-- `lift_to_binary(GA)`: the `(rows*L) x (cols*L)` block matrix whose `(i,j)`
block is `lift_ga_element(GA.data[i,j])`; entry `(p, q)` lies in block
`(p / L, q / L)` at block-local position `(p % L, q % L)`. -/
def lift_to_binary (GA : GroupAlgebraMatrix) : List (List Nat) :=
  let L := GA.L0
  (List.range (GA.rows * L)).map (fun p => (List.range (GA.cols * L)).map (fun q =>
    ((lift_ga_element (GA.get (p / L) (q / L))).getD (p % L) []).getD (q % L) 0))

/-- Ordinary integer matrix product `HA @ HB` (numpy semantics on rectangular
arrays; uint8 wraparound mod 256 never changes an entry mod 2, so plain `Nat`
sums give the same mod-2 content). -/
def natMatMul (A B : List (List Nat)) : List (List Nat) :=
  A.map (fun ar => (List.range (B.headD []).length).map (fun j =>
    (List.range B.length).foldl
      (fun s k => s + ar.getD k 0 * ((B.getD k []).getD j 0)) 0))

/-- `np.all((H) % 2 == 0)`. -/
def binZeroMod2 (M : List (List Nat)) : Bool :=
  M.all (fun r => r.all (fun v => v % 2 == 0))

/-- Add (= XOR over GF(2)) one row into another, used to clear a pivot column. -/
def xorRow (r p : List (ZMod 2)) : List (ZMod 2) := List.zipWith (fun x y => x + y) r p

/-- Modelled from the spec: exact GF(2) matrix rank by Gaussian elimination,
the consumed external primitive `np.linalg.matrix_rank(galois.GF(2)(M))`
(an "OUT OF SCOPE ... GF(2) matrix-rank computation" primitive whose code is
not under `src/`). One step per column: if some row starts with 1 it is a
pivot (rank +1), it is removed and added into every other row starting with 1,
and the leading column is dropped; otherwise the leading column is dropped. -/
def gf2RankGo : Nat → List (List (ZMod 2)) → Nat
  | 0, _ => 0
  | w + 1, rows =>
    match rows.find? (fun r => r.getD 0 0 == 1) with
    | none => gf2RankGo w (rows.map (List.drop 1))
    | some p =>
      let rest := (rows.erase p).map (fun r => if r.getD 0 0 == 1 then xorRow r p else r)
      1 + gf2RankGo w (rest.map (List.drop 1))

/-- Modelled from the spec: GF(2) rank of a matrix given as a list of rows. -/
def gf2RankL (rows : List (List (ZMod 2))) : Nat :=
  gf2RankGo (rows.headD []).length rows

/-- Row-major listing of a typed GF(2) matrix (to feed the rank primitive). -/
def matToList {m n : Nat} (M : Matrix (Fin m) (Fin n) (ZMod 2)) :
    List (List (ZMod 2)) :=
  (List.finRange m).map (fun i => (List.finRange n).map (fun j => M i j))

/-- View a binary (0/1) integer matrix as a typed GF(2) matrix of the stated
shape (the HGP stage only ever uses its inputs mod 2). -/
def toMatZ2 (m n : Nat) (M : List (List Nat)) : Matrix (Fin m) (Fin n) (ZMod 2) :=
  Matrix.of (fun i j => (((M.getD i []).getD j 0 : Nat) : ZMod 2))

/-- `HX = hstack(kron(A, eye(nB)), kron(eye(mA), B.T))`: rows indexed by
`Fin mA × Fin nB`, columns by the sum of the two Kronecker blocks. -/
def hgpHX {mA nA mB nB : Nat} (A : Matrix (Fin mA) (Fin nA) (ZMod 2))
    (B : Matrix (Fin mB) (Fin nB) (ZMod 2)) :
    Matrix (Fin mA × Fin nB) ((Fin nA × Fin nB) ⊕ (Fin mA × Fin mB)) (ZMod 2) :=
  Matrix.fromColumns (Matrix.kronecker A (1 : Matrix (Fin nB) (Fin nB) (ZMod 2)))
    (Matrix.kronecker (1 : Matrix (Fin mA) (Fin mA) (ZMod 2)) Bᵀ)

/-- `HZ = hstack(kron(eye(nA), B), kron(A.T, eye(mB)))`. -/
def hgpHZ {mA nA mB nB : Nat} (A : Matrix (Fin mA) (Fin nA) (ZMod 2))
    (B : Matrix (Fin mB) (Fin nB) (ZMod 2)) :
    Matrix (Fin nA × Fin mB) ((Fin nA × Fin nB) ⊕ (Fin mA × Fin mB)) (ZMod 2) :=
  Matrix.fromColumns (Matrix.kronecker (1 : Matrix (Fin nA) (Fin nA) (ZMod 2)) B)
    (Matrix.kronecker Aᵀ (1 : Matrix (Fin mB) (Fin mB) (ZMod 2)))

/-- The fields of a constructed `HGP` object: `H_X`, `H_Z`, `n`, `k`. -/
structure HGPResult (mA nA mB nB : Nat) where
  H_X : Matrix (Fin mA × Fin nB) ((Fin nA × Fin nB) ⊕ (Fin mA × Fin mB)) (ZMod 2)
  H_Z : Matrix (Fin nA × Fin mB) ((Fin nA × Fin nB) ⊕ (Fin mA × Fin mB)) (ZMod 2)
  n : Nat
  k : Int

/-- `HGP._get_k_`: `kA*kB + kAT*kBT` with each `kX` the column count minus the
GF(2) rank (Python `int` arithmetic, hence `Int`). -/
def hgpK {mA nA mB nB : Nat} (A : Matrix (Fin mA) (Fin nA) (ZMod 2))
    (B : Matrix (Fin mB) (Fin nB) (ZMod 2)) : Int :=
  let rank_A : Int := gf2RankL (matToList A)
  let rank_B : Int := gf2RankL (matToList B)
  let rank_AT : Int := gf2RankL (matToList Aᵀ)
  let rank_BT : Int := gf2RankL (matToList Bᵀ)
  let kA := (nA : Int) - rank_A
  let kB := (nB : Int) - rank_B
  let kAT := (mA : Int) - rank_AT
  let kBT := (mB : Int) - rank_BT
  kA * kB + kAT * kBT

/-- The object produced when every constructor check of `HGP.__init__`
passes: `H_X`, `H_Z`, `n = mA*mB + nA*nB`, and `k` from `_get_k_`. -/
def hgpCore {mA nA mB nB : Nat} (A : Matrix (Fin mA) (Fin nA) (ZMod 2))
    (B : Matrix (Fin mB) (Fin nB) (ZMod 2)) : HGPResult mA nA mB nB :=
  ⟨hgpHX A B, hgpHZ A B, mA * mB + nA * nB, hgpK A B⟩

/-- `HGP.__init__` once both `A` and `B` are present: build `H_X`, `H_Z`,
check `_css_condition` (`H_X @ H_Z.T % 2 == 0`, any nonzero entry fatal),
then `_get_n_` (`n = mA*mB + nA*nB` must equal both column counts, the column
count of a typed matrix being the cardinality of its column index type),
then `_get_k_`. -/
def hgpOf {mA nA mB nB : Nat} (A : Matrix (Fin mA) (Fin nA) (ZMod 2))
    (B : Matrix (Fin mB) (Fin nB) (ZMod 2)) :
    Except String (HGPResult mA nA mB nB) :=
  if hgpHX A B * (hgpHZ A B)ᵀ = 0 then
    if mA * mB + nA * nB ≠ Fintype.card ((Fin nA × Fin nB) ⊕ (Fin mA × Fin mB)) ∨
        mA * mB + nA * nB ≠ Fintype.card ((Fin nA × Fin nB) ⊕ (Fin mA × Fin mB)) then
      Except.error "Computed n does not match parity check matrix shape."
    else Except.ok (hgpCore A B)
  else Except.error "CSS condition does not hold."

/-- A binary matrix of unspecified (runtime) shape, as numpy hands it around. -/
def PackedMat : Type := Σ m n : Nat, Matrix (Fin m) (Fin n) (ZMod 2)

/-- Transpose of a packed matrix. -/
def PackedMat.transposeP (p : PackedMat) : PackedMat := ⟨p.2.1, p.1, p.2.2ᵀ⟩

/-- A constructed HGP object of unspecified (runtime) dimensions. -/
def PackedHGP : Type := Σ mA nA mB nB : Nat, HGPResult mA nA mB nB

/-- The `Optional` dispatch of `HGP.__init__`: neither matrix given is fatal;
a single given matrix makes the other default to its transpose. -/
def HGP_make (Aopt Bopt : Option PackedMat) : Except String PackedHGP :=
  match Aopt, Bopt with
  | none, none => Except.error "At least one of the matrices A or B must be provided."
  | none, some pB =>
      (hgpOf pB.2.2ᵀ pB.2.2).map (fun r => ⟨pB.2.1, pB.1, pB.1, pB.2.1, r⟩)
  | some pA, none =>
      (hgpOf pA.2.2 pA.2.2ᵀ).map (fun r => ⟨pA.1, pA.2.1, pA.2.1, pA.1, r⟩)
  | some pA, some pB =>
      (hgpOf pA.2.2 pB.2.2).map (fun r => ⟨pA.1, pA.2.1, pB.1, pB.2.1, r⟩)

/-! ### Semantic bridge: parities of the imperative loops as GF(2) sums -/

/-- The inner convolution loop of `GroupAlgebraElement.__mul__` for a fixed
set coefficient `i` of the left factor. -/
def convInner (b : List Nat) (n i : Nat) (acc : List Nat) : List Nat :=
  (List.range b.length).foldl
    (fun acc2 j => if b.getD j 0 ≠ 0 then applyToggle acc2 ((i + j) % n) else acc2) acc

/-- The full convolution loop of `GroupAlgebraElement.__mul__`. -/
def convOuter (a b : List Nat) (n : Nat) : List Nat :=
  (List.range a.length).foldl
    (fun acc i => if a.getD i 0 ≠ 0 then convInner b n i acc else acc)
    (List.replicate n 0)

/-- The GF(2) value of coefficient `j` of a cyclic convolution, as a double
sum over the coefficient positions of the factors. -/
def convSpec (a b : GroupAlgebraElement) (j : Nat) : ZMod 2 :=
  ∑ i ∈ Finset.range a.coeffs.length, ∑ k ∈ Finset.range b.coeffs.length,
    if (i + k) % a.n = j then bitZ (a.coeffs.getD i 0) * bitZ (b.coeffs.getD k 0) else 0

/-- Well-formedness of a group-algebra matrix at group order `L`: nonempty,
rectangular, and every element carries the common group order `L` (the
"implicit shared-L invariant" the source relies on). -/
def GroupAlgebraMatrix.wf (M : GroupAlgebraMatrix) (L : Nat) : Prop :=
  0 < M.rows ∧ 0 < M.cols ∧
  (∀ row ∈ M.data, row.length = M.cols) ∧
  (∀ row ∈ M.data, ∀ e ∈ row, e.n = L)

/-- Entry `(i, j)` of the group-algebra matrix product: the accumulation loop
of `GroupAlgebraMatrix.__matmul__`. -/
def gaProdEntry (A B : GroupAlgebraMatrix) (i j : Nat) : GroupAlgebraElement :=
  (List.range A.cols).foldl
    (fun s k => GroupAlgebraElement.add s
      (GroupAlgebraElement.mul (A.get i k) (B.get k j)))
    ⟨List.replicate A.L0 0, A.L0⟩

/-- The GF(2) value of coefficient `j` of a triple cyclic convolution (the
common normal form of both associations of a three-fold product). -/
def triSum (a b c : List Nat) (n j : Nat) : ZMod 2 :=
  ∑ i ∈ Finset.range a.length, ∑ k ∈ Finset.range b.length,
    ∑ m ∈ Finset.range c.length,
    if (i + k + m) % n = j then
      bitZ (a.getD i 0) * bitZ (b.getD k 0) * bitZ (c.getD m 0) else 0

/-- `LPC.__init__`: the lifted-product pipeline as the module actually runs.
The abstract-ring check and the group-algebra check execute, each failing
fast with the source's message. The next statement,
`self.HA = lift_to_binary(self.GA)`, then raises `NameError`: the imports of
the LPC module name only `RingElement`, `RingMatrix`, `GroupAlgebraElement`,
`RingLifter`, `GroupAlgebraMatrix` and `HGP`, never `lift_to_binary` (which
lives in the algebra module), so the name is unbound at that line and the
remaining constructor statements (the binary CSS check and the `HGP` call)
are unreachable. -/
def mkLPC (A_ring B_ring : RingMatrix)
    (generator_images : List GroupAlgebraElement) : Except String PackedHGP :=
  match ringMatMul A_ring B_ring with
  | Except.error e => Except.error e
  | Except.ok P =>
    if !P.isZero then Except.error "Abstract condition AB = 0 is not satisfied." else
    let lifter : RingLifter := ⟨generator_images⟩
    let GA : GroupAlgebraMatrix :=
      ⟨A_ring.data.map (fun row => row.map (fun e => lifter.lift e))⟩
    let GB : GroupAlgebraMatrix :=
      ⟨B_ring.data.map (fun row => row.map (fun e => lifter.lift e))⟩
    match gaMatMul GA GB with
    | Except.error e => Except.error e
    | Except.ok Q =>
      if !Q.isZero then Except.error "Lifted condition AB = 0 failed in group algebra." else
      Except.error "NameError: name lift_to_binary is not defined"

/-! ### The concrete scenario of the spec and of the example usage in the
source: two-generator ring matrices with `A @ B = 0`, lifted at level `L = 4`
through the images `g`, `g^-1 = g^3`. -/

/-- `x = RingElement([1, 0])`. -/
def xEx : RingElement := RingElement.ofInts [1, 0]

/-- `y = RingElement([0, 1])`. -/
def yEx : RingElement := RingElement.ofInts [0, 1]

/-- `A = RingMatrix([[x, y]])`. -/
def A_ring_ex : RingMatrix := ⟨[[xEx, yEx]]⟩

/-- `B = RingMatrix([[y], [x]])`. -/
def B_ring_ex : RingMatrix := ⟨[[yEx], [xEx]]⟩

/-- `g = GroupAlgebraElement([0,1,0,0], 4)`. -/
def gEx : GroupAlgebraElement := GroupAlgebraElement.ofInts [0, 1, 0, 0] 4

/-- `g_inv = GroupAlgebraElement([0,0,0,1], 4)`. -/
def gInvEx : GroupAlgebraElement := GroupAlgebraElement.ofInts [0, 0, 0, 1] 4

/-- `lifter = RingLifter([g, g_inv])`. -/
def lifterEx : RingLifter := ⟨[gEx, gInvEx]⟩

/-- The entrywise lift of `A_ring_ex`, as built inside `LPC.__init__`. -/
def GA_ex : GroupAlgebraMatrix := ⟨[[lifterEx.lift xEx, lifterEx.lift yEx]]⟩

/-- The entrywise lift of `B_ring_ex`, as built inside `LPC.__init__`. -/
def GB_ex : GroupAlgebraMatrix := ⟨[[lifterEx.lift yEx], [lifterEx.lift xEx]]⟩

/-! ### Basic lemmas about bits, toggles and folds -/

lemma bitZ_of_zero : bitZ 0 = 0 := rfl

lemma bitZ_of_lt_two {v : Nat} (h : v < 2) : bitZ v = (v : ZMod 2) := by
  interval_cases v <;> rfl

lemma eq_of_bitZ_eq {x y : Nat} (hx : x < 2) (hy : y < 2) (h : bitZ x = bitZ y) :
    x = y := by
  interval_cases x <;> interval_cases y <;> first | rfl | exact absurd h (by decide)

lemma xor_one_lt_two {x : Nat} (h : x < 2) : x ^^^ 1 < 2 := by
  interval_cases x <;> decide

lemma xor_lt_two {x y : Nat} (hx : x < 2) (hy : y < 2) : x ^^^ y < 2 := by
  interval_cases x <;> interval_cases y <;> decide

lemma bitZ_xor_one {x : Nat} (h : x < 2) : bitZ (x ^^^ 1) = bitZ x + 1 := by
  interval_cases x <;> decide

lemma bitZ_xor {x y : Nat} (hx : x < 2) (hy : y < 2) :
    bitZ (x ^^^ y) = bitZ x + bitZ y := by
  interval_cases x <;> interval_cases y <;> decide

lemma foldl_range_succ {α : Type} (f : α → Nat → α) (a : α) (m : Nat) :
    (List.range (m + 1)).foldl f a = f ((List.range m).foldl f a) m := by
  rw [List.range_succ, List.foldl_append]
  rfl

lemma foldl_invariant {α β : Type} (inv : β → Prop) (f : β → α → β)
    (h : ∀ b a, inv b → inv (f b a)) :
    ∀ (l : List α) (b : β), inv b → inv (l.foldl f b) := by
  intro l
  induction l with
  | nil => intro b hb; exact hb
  | cons x xs ih => intro b hb; exact ih (f b x) (h b x hb)

lemma foldl_add_sum (f : Nat → Nat) (a m : Nat) :
    (List.range m).foldl (fun s k => s + f k) a = a + ∑ k ∈ Finset.range m, f k := by
  induction m with
  | zero => simp
  | succ m ih => rw [foldl_range_succ, ih, Finset.sum_range_succ, Nat.add_assoc]

lemma getD_mem {l : List Nat} {j : Nat} (h : j < l.length) : l.getD j 0 ∈ l := by
  rw [List.getD_eq_getElem l 0 h]
  exact List.getElem_mem h

lemma getD_set_self {l : List Nat} {t v : Nat} (h : t < l.length) :
    (l.set t v).getD t 0 = v := by
  rw [List.getD_eq_getElem _ 0 (by simpa using h)]
  simp [List.getElem_set, h]

lemma getD_set_ne {l : List Nat} {t j v : Nat} (h : j ≠ t) :
    (l.set t v).getD j 0 = l.getD j 0 := by
  by_cases hj : j < l.length
  · rw [List.getD_eq_getElem _ 0 (by simpa using hj), List.getD_eq_getElem _ 0 hj]
    simp [List.getElem_set, Ne.symm h]
  · rw [List.getD_eq_default _ 0 (by simpa using Nat.le_of_not_lt hj),
      List.getD_eq_default _ 0 (Nat.le_of_not_lt hj)]

lemma length_applyToggle (l : List Nat) (t : Nat) :
    (applyToggle l t).length = l.length := by
  simp [applyToggle]

lemma applyToggle_lt_two {l : List Nat} (t : Nat) (h : ∀ v ∈ l, v < 2) :
    ∀ v ∈ applyToggle l t, v < 2 := by
  intro v hv
  rcases List.mem_or_eq_of_mem_set hv with h1 | h1
  · exact h v h1
  · subst h1
    by_cases ht : t < l.length
    · exact xor_one_lt_two (h _ (getD_mem ht))
    · exact xor_one_lt_two
        (by rw [List.getD_eq_default _ 0 (Nat.le_of_not_lt ht)]; decide)

lemma bitZ_applyToggle {l : List Nat} {t j : Nat} (h : ∀ v ∈ l, v < 2)
    (ht : t < l.length) (hj : j < l.length) :
    bitZ ((applyToggle l t).getD j 0) =
      bitZ (l.getD j 0) + (if t = j then 1 else 0) := by
  by_cases e : t = j
  · subst e
    rw [applyToggle, getD_set_self ht, bitZ_xor_one (h _ (getD_mem ht))]
    simp
  · rw [applyToggle, getD_set_ne (Ne.symm e)]
    simp [e]


lemma bitZ_of_ne_zero {v : Nat} (h : v ≠ 0) : bitZ v = 1 := by simp [bitZ, h]

lemma getD_replicate {n j v : Nat} (h : j < n) :
    (List.replicate n v).getD j 0 = v := by
  rw [List.getD_eq_getElem _ 0 (by simpa using h)]
  simp

lemma replicate_lt_two {n : Nat} : ∀ v ∈ List.replicate n 0, v < 2 := by
  intro v hv
  rw [List.eq_of_mem_replicate hv]
  decide

lemma mul_eq_convOuter (a b : GroupAlgebraElement) :
    GroupAlgebraElement.mul a b = ⟨convOuter a.coeffs b.coeffs a.n, a.n⟩ := rfl

lemma convInner_step_wf {n : Nat} (b : List Nat) (i : Nat) :
    ∀ (l : List Nat) (k : Nat), (l.length = n ∧ ∀ v ∈ l, v < 2) →
      ((if b.getD k 0 ≠ 0 then applyToggle l ((i + k) % n) else l).length = n ∧
       ∀ v ∈ (if b.getD k 0 ≠ 0 then applyToggle l ((i + k) % n) else l), v < 2) := by
  rintro l k ⟨hll, hl2⟩
  by_cases hb : b.getD k 0 ≠ 0
  · rw [if_pos hb]
    exact ⟨(length_applyToggle l _).trans hll, applyToggle_lt_two _ hl2⟩
  · rw [if_neg hb]
    exact ⟨hll, hl2⟩

lemma convInner_wf {n : Nat} (b : List Nat) (i : Nat) (acc : List Nat)
    (hl : acc.length = n) (h2 : ∀ v ∈ acc, v < 2) :
    (convInner b n i acc).length = n ∧ ∀ v ∈ convInner b n i acc, v < 2 :=
  foldl_invariant (fun l => l.length = n ∧ ∀ v ∈ l, v < 2) _
    (convInner_step_wf b i) (List.range b.length) acc ⟨hl, h2⟩

lemma convOuter_step_wf {n : Nat} (a b : List Nat) :
    ∀ (l : List Nat) (i : Nat), (l.length = n ∧ ∀ v ∈ l, v < 2) →
      ((if a.getD i 0 ≠ 0 then convInner b n i l else l).length = n ∧
       ∀ v ∈ (if a.getD i 0 ≠ 0 then convInner b n i l else l), v < 2) := by
  rintro l i ⟨hll, hl2⟩
  by_cases ha : a.getD i 0 ≠ 0
  · rw [if_pos ha]
    exact convInner_wf b i l hll hl2
  · rw [if_neg ha]
    exact ⟨hll, hl2⟩

lemma convOuter_wf (a b : List Nat) (n : Nat) :
    (convOuter a b n).length = n ∧ ∀ v ∈ convOuter a b n, v < 2 :=
  foldl_invariant (fun l => l.length = n ∧ ∀ v ∈ l, v < 2) _
    (convOuter_step_wf a b) (List.range a.length) (List.replicate n 0)
    ⟨List.length_replicate _ _, replicate_lt_two⟩

lemma bitZ_convInner_partial (b : List Nat) {n : Nat} (i : Nat) (hn : 0 < n) :
    ∀ (m : Nat) (acc : List Nat), acc.length = n → (∀ v ∈ acc, v < 2) →
      ∀ j, j < n →
      bitZ (((List.range m).foldl
          (fun acc2 k => if b.getD k 0 ≠ 0 then applyToggle acc2 ((i + k) % n) else acc2)
          acc).getD j 0) =
        bitZ (acc.getD j 0) +
          ∑ k ∈ Finset.range m, if (i + k) % n = j then bitZ (b.getD k 0) else 0 := by
  intro m
  induction m with
  | zero => intro acc _ _ j _; simp
  | succ m ih =>
    intro acc hl h2 j hj
    rw [foldl_range_succ, Finset.sum_range_succ]
    have hres := foldl_invariant (fun l => l.length = n ∧ ∀ v ∈ l, v < 2) _
      (convInner_step_wf b i) (List.range m) acc ⟨hl, h2⟩
    by_cases hb : b.getD m 0 ≠ 0
    · rw [if_pos hb,
        bitZ_applyToggle hres.2 (by rw [hres.1]; exact Nat.mod_lt _ hn)
          (by rw [hres.1]; exact hj),
        ih acc hl h2 j hj, bitZ_of_ne_zero hb, add_assoc]
    · rw [if_neg hb, ih acc hl h2 j hj]
      have h0 : bitZ (b.getD m 0) = 0 := by
        simp only [ne_eq, not_not] at hb
        rw [hb]
        rfl
      rw [h0]
      simp

lemma bitZ_convOuter (a b : List Nat) {n : Nat} (hn : 0 < n) (j : Nat) (hj : j < n) :
    bitZ ((convOuter a b n).getD j 0) =
      ∑ i ∈ Finset.range a.length, ∑ k ∈ Finset.range b.length,
        if (i + k) % n = j then bitZ (a.getD i 0) * bitZ (b.getD k 0) else 0 := by
  rw [convOuter]
  suffices h : ∀ (m : Nat),
      bitZ (((List.range m).foldl
        (fun acc i => if a.getD i 0 ≠ 0 then convInner b n i acc else acc)
        (List.replicate n 0)).getD j 0) =
      ∑ i ∈ Finset.range m, ∑ k ∈ Finset.range b.length,
        if (i + k) % n = j then bitZ (a.getD i 0) * bitZ (b.getD k 0) else 0 by
    exact h a.length
  intro m
  induction m with
  | zero => simp [getD_replicate hj, bitZ]
  | succ m ih =>
    rw [foldl_range_succ, Finset.sum_range_succ]
    have hres := foldl_invariant (fun l => l.length = n ∧ ∀ v ∈ l, v < 2) _
      (convOuter_step_wf a b) (List.range m) (List.replicate n 0)
      ⟨List.length_replicate _ _, replicate_lt_two⟩
    by_cases ha : a.getD m 0 ≠ 0
    · rw [if_pos ha, convInner,
        bitZ_convInner_partial b m hn b.length _ hres.1 hres.2 j hj, ih]
      congr 1
      refine Finset.sum_congr rfl (fun k _ => ?_)
      rw [bitZ_of_ne_zero ha, one_mul]
    · rw [if_neg ha, ih]
      have h0 : bitZ (a.getD m 0) = 0 := by
        simp only [ne_eq, not_not] at ha
        rw [ha]
        rfl
      rw [h0]
      simp

lemma gaMul_n (a b : GroupAlgebraElement) : (GroupAlgebraElement.mul a b).n = a.n := rfl

lemma gaMul_length (a b : GroupAlgebraElement) :
    (GroupAlgebraElement.mul a b).coeffs.length = a.n :=
  (convOuter_wf a.coeffs b.coeffs a.n).1

lemma gaMul_lt_two (a b : GroupAlgebraElement) :
    ∀ v ∈ (GroupAlgebraElement.mul a b).coeffs, v < 2 :=
  (convOuter_wf a.coeffs b.coeffs a.n).2

lemma bitZ_gaMul (a b : GroupAlgebraElement) (hn : 0 < a.n) {j : Nat} (hj : j < a.n) :
    bitZ ((GroupAlgebraElement.mul a b).coeffs.getD j 0) = convSpec a b j := by
  rw [mul_eq_convOuter]
  exact bitZ_convOuter a.coeffs b.coeffs hn j hj

lemma itePushSum {α : Type} (P : Prop) [Decidable P] (s : Finset α)
    (f : α → ZMod 2) :
    (if P then ∑ x ∈ s, f x else 0) = ∑ x ∈ s, (if P then f x else 0) := by
  by_cases h : P <;> simp [h]

lemma iteSwapZero (P Q : Prop) [Decidable P] [Decidable Q] (x : ZMod 2) :
    (if P then (if Q then x else 0) else 0) =
      (if Q then (if P then x else 0) else 0) := by
  by_cases hP : P <;> by_cases hQ : Q <;> simp [hP, hQ]

lemma sumCollapseMod {n : Nat} (hn : 0 < n) (x : Nat) (g : Nat → ZMod 2) :
    (∑ p ∈ Finset.range n, if x % n = p then g p else 0) = g (x % n) := by
  rw [Finset.sum_ite_eq (Finset.range n) (x % n) g,
    if_pos (Finset.mem_range.mpr (Nat.mod_lt x hn))]

lemma list_eq_of_bitZ {l1 l2 : List Nat} (h1 : ∀ v ∈ l1, v < 2)
    (h2 : ∀ v ∈ l2, v < 2) (hl : l1.length = l2.length)
    (hb : ∀ j, j < l1.length → bitZ (l1.getD j 0) = bitZ (l2.getD j 0)) :
    l1 = l2 := by
  apply List.ext_getElem hl
  intro i hi1 hi2
  have h := hb i hi1
  rw [List.getD_eq_getElem l1 0 hi1, List.getD_eq_getElem l2 0 hi2] at h
  exact eq_of_bitZ_eq (h1 _ (List.getElem_mem hi1)) (h2 _ (List.getElem_mem hi2)) h

lemma convSpec_comm (a b : GroupAlgebraElement) (h : a.n = b.n) (j : Nat) :
    convSpec a b j = convSpec b a j := by
  rw [convSpec, convSpec, Finset.sum_comm]
  refine Finset.sum_congr rfl fun k _ => Finset.sum_congr rfl fun i _ => ?_
  rw [Nat.add_comm k i, h, mul_comm]

lemma convSpec_mulLeft (a b c : GroupAlgebraElement) (hn : 0 < a.n) (j : Nat) :
    convSpec (GroupAlgebraElement.mul a b) c j =
      triSum a.coeffs b.coeffs c.coeffs a.n j := by
  rw [convSpec, triSum]
  have hlen : (GroupAlgebraElement.mul a b).coeffs.length = a.n := gaMul_length a b
  have hnn : (GroupAlgebraElement.mul a b).n = a.n := rfl
  rw [hlen, hnn]
  have step1 : ∀ p ∈ Finset.range a.n, ∀ m ∈ Finset.range c.coeffs.length,
      (if (p + m) % a.n = j then
        bitZ ((GroupAlgebraElement.mul a b).coeffs.getD p 0) *
          bitZ (c.coeffs.getD m 0) else 0) =
      ∑ i ∈ Finset.range a.coeffs.length, ∑ k ∈ Finset.range b.coeffs.length,
        if (i + k) % a.n = p then
          (if (p + m) % a.n = j then
            bitZ (a.coeffs.getD i 0) * bitZ (b.coeffs.getD k 0) *
              bitZ (c.coeffs.getD m 0) else 0) else 0 := by
    intro p hp m _
    rw [bitZ_gaMul a b hn (Finset.mem_range.mp hp), convSpec, Finset.sum_mul,
      itePushSum]
    refine Finset.sum_congr rfl fun i _ => ?_
    rw [Finset.sum_mul, itePushSum]
    refine Finset.sum_congr rfl fun k _ => ?_
    rw [ite_mul, zero_mul, iteSwapZero]
  calc
    (∑ p ∈ Finset.range a.n, ∑ m ∈ Finset.range c.coeffs.length,
      if (p + m) % a.n = j then
        bitZ ((GroupAlgebraElement.mul a b).coeffs.getD p 0) *
          bitZ (c.coeffs.getD m 0) else 0)
      = ∑ p ∈ Finset.range a.n, ∑ m ∈ Finset.range c.coeffs.length,
          ∑ i ∈ Finset.range a.coeffs.length, ∑ k ∈ Finset.range b.coeffs.length,
          if (i + k) % a.n = p then
            (if (p + m) % a.n = j then
              bitZ (a.coeffs.getD i 0) * bitZ (b.coeffs.getD k 0) *
                bitZ (c.coeffs.getD m 0) else 0) else 0 := by
        refine Finset.sum_congr rfl fun p hp => Finset.sum_congr rfl fun m hm => ?_
        exact step1 p hp m hm
    _ = ∑ m ∈ Finset.range c.coeffs.length, ∑ i ∈ Finset.range a.coeffs.length,
          ∑ k ∈ Finset.range b.coeffs.length, ∑ p ∈ Finset.range a.n,
          if (i + k) % a.n = p then
            (if (p + m) % a.n = j then
              bitZ (a.coeffs.getD i 0) * bitZ (b.coeffs.getD k 0) *
                bitZ (c.coeffs.getD m 0) else 0) else 0 := by
        rw [Finset.sum_comm]
        refine Finset.sum_congr rfl fun m _ => ?_
        rw [Finset.sum_comm]
        refine Finset.sum_congr rfl fun i _ => ?_
        rw [Finset.sum_comm]
    _ = ∑ m ∈ Finset.range c.coeffs.length, ∑ i ∈ Finset.range a.coeffs.length,
          ∑ k ∈ Finset.range b.coeffs.length,
          if (i + k + m) % a.n = j then
            bitZ (a.coeffs.getD i 0) * bitZ (b.coeffs.getD k 0) *
              bitZ (c.coeffs.getD m 0) else 0 := by
        refine Finset.sum_congr rfl fun m _ => Finset.sum_congr rfl fun i _ =>
          Finset.sum_congr rfl fun k _ => ?_
        rw [sumCollapseMod hn (i + k)
          (fun p => if (p + m) % a.n = j then
            bitZ (a.coeffs.getD i 0) * bitZ (b.coeffs.getD k 0) *
              bitZ (c.coeffs.getD m 0) else 0),
          Nat.mod_add_mod]
    _ = ∑ i ∈ Finset.range a.coeffs.length, ∑ k ∈ Finset.range b.coeffs.length,
          ∑ m ∈ Finset.range c.coeffs.length,
          if (i + k + m) % a.n = j then
            bitZ (a.coeffs.getD i 0) * bitZ (b.coeffs.getD k 0) *
              bitZ (c.coeffs.getD m 0) else 0 := by
        rw [Finset.sum_comm]
        refine Finset.sum_congr rfl fun i _ => ?_
        rw [Finset.sum_comm]

lemma convSpec_mulRight (a b c : GroupAlgebraElement) (hb : b.n = a.n)
    (hn : 0 < a.n) (j : Nat) :
    convSpec a (GroupAlgebraElement.mul b c) j =
      triSum a.coeffs b.coeffs c.coeffs a.n j := by
  rw [convSpec, triSum]
  have hlen : (GroupAlgebraElement.mul b c).coeffs.length = a.n := by
    rw [gaMul_length b c, hb]
  have hnb : 0 < b.n := by rw [hb]; exact hn
  rw [hlen]
  have step1 : ∀ i ∈ Finset.range a.coeffs.length, ∀ p ∈ Finset.range a.n,
      (if (i + p) % a.n = j then
        bitZ (a.coeffs.getD i 0) *
          bitZ ((GroupAlgebraElement.mul b c).coeffs.getD p 0) else 0) =
      ∑ k ∈ Finset.range b.coeffs.length, ∑ m ∈ Finset.range c.coeffs.length,
        if (k + m) % a.n = p then
          (if (i + p) % a.n = j then
            bitZ (a.coeffs.getD i 0) *
              (bitZ (b.coeffs.getD k 0) * bitZ (c.coeffs.getD m 0)) else 0) else 0 := by
    intro i _ p hp
    rw [bitZ_gaMul b c hnb (by rw [hb]; exact Finset.mem_range.mp hp), convSpec]
    simp only [hb]
    rw [Finset.mul_sum, itePushSum]
    refine Finset.sum_congr rfl fun k _ => ?_
    rw [Finset.mul_sum, itePushSum]
    refine Finset.sum_congr rfl fun m _ => ?_
    rw [mul_ite, mul_zero, iteSwapZero]
  calc
    (∑ i ∈ Finset.range a.coeffs.length, ∑ p ∈ Finset.range a.n,
      if (i + p) % a.n = j then
        bitZ (a.coeffs.getD i 0) *
          bitZ ((GroupAlgebraElement.mul b c).coeffs.getD p 0) else 0)
      = ∑ i ∈ Finset.range a.coeffs.length, ∑ p ∈ Finset.range a.n,
          ∑ k ∈ Finset.range b.coeffs.length, ∑ m ∈ Finset.range c.coeffs.length,
          if (k + m) % a.n = p then
            (if (i + p) % a.n = j then
              bitZ (a.coeffs.getD i 0) *
                (bitZ (b.coeffs.getD k 0) * bitZ (c.coeffs.getD m 0)) else 0) else 0 := by
        refine Finset.sum_congr rfl fun i hi => Finset.sum_congr rfl fun p hp => ?_
        exact step1 i hi p hp
    _ = ∑ i ∈ Finset.range a.coeffs.length, ∑ k ∈ Finset.range b.coeffs.length,
          ∑ m ∈ Finset.range c.coeffs.length, ∑ p ∈ Finset.range a.n,
          if (k + m) % a.n = p then
            (if (i + p) % a.n = j then
              bitZ (a.coeffs.getD i 0) *
                (bitZ (b.coeffs.getD k 0) * bitZ (c.coeffs.getD m 0)) else 0) else 0 := by
        refine Finset.sum_congr rfl fun i _ => ?_
        rw [Finset.sum_comm]
        refine Finset.sum_congr rfl fun k _ => ?_
        rw [Finset.sum_comm]
    _ = ∑ i ∈ Finset.range a.coeffs.length, ∑ k ∈ Finset.range b.coeffs.length,
          ∑ m ∈ Finset.range c.coeffs.length,
          if (i + k + m) % a.n = j then
            bitZ (a.coeffs.getD i 0) * bitZ (b.coeffs.getD k 0) *
              bitZ (c.coeffs.getD m 0) else 0 := by
        refine Finset.sum_congr rfl fun i _ => Finset.sum_congr rfl fun k _ =>
          Finset.sum_congr rfl fun m _ => ?_
        rw [sumCollapseMod hn (k + m)
          (fun p => if (i + p) % a.n = j then
            bitZ (a.coeffs.getD i 0) *
              (bitZ (b.coeffs.getD k 0) * bitZ (c.coeffs.getD m 0)) else 0),
          Nat.add_mod_mod, ← Nat.add_assoc, ← mul_assoc]

lemma gaElem_ext {x y : GroupAlgebraElement} (h1 : x.coeffs = y.coeffs)
    (h2 : x.n = y.n) : x = y := by
  cases x
  cases y
  simp_all

/-- C7: for all group-algebra elements `a`, `b`, `c` sharing one group order
`L`, the cyclic-convolution multiplication of `GroupAlgebraElement.__mul__` is
associative and commutative: `(a*b)*c = a*(b*c)` and `a*b = b*a`, equality
being equality of the stored coefficient vectors (and group orders). -/
theorem claim_C7_mul_assoc_comm (a b c : GroupAlgebraElement) (L : Nat)
    (ha : a.n = L) (hb : b.n = L) (hc : c.n = L) (hL : 0 < L) :
    GroupAlgebraElement.mul (GroupAlgebraElement.mul a b) c =
      GroupAlgebraElement.mul a (GroupAlgebraElement.mul b c) ∧
    GroupAlgebraElement.mul a b = GroupAlgebraElement.mul b a := by
  have hn : 0 < a.n := by rw [ha]; exact hL
  have hba : b.n = a.n := by rw [ha, hb]
  have hnb : 0 < b.n := by rw [hb]; exact hL
  constructor
  · refine gaElem_ext ?_ rfl
    apply list_eq_of_bitZ (gaMul_lt_two _ _) (gaMul_lt_two _ _)
    · rw [gaMul_length, gaMul_length, gaMul_n]
    · intro j hj
      have hj' : j < a.n := by rwa [gaMul_length, gaMul_n] at hj
      rw [bitZ_gaMul (GroupAlgebraElement.mul a b) c hn hj',
        bitZ_gaMul a (GroupAlgebraElement.mul b c) hn hj',
        convSpec_mulLeft a b c hn j, convSpec_mulRight a b c hba hn j]
  · refine gaElem_ext ?_ hba.symm
    apply list_eq_of_bitZ (gaMul_lt_two _ _) (gaMul_lt_two _ _)
    · rw [gaMul_length, gaMul_length, hba]
    · intro j hj
      have hj' : j < a.n := by rwa [gaMul_length] at hj
      rw [bitZ_gaMul a b hn hj', bitZ_gaMul b a hnb (by rw [hba]; exact hj'),
        convSpec_comm a b hba.symm j]

/-- Witness for C7 at the concrete order `L = 4`. -/
theorem claim_C7_mul_assoc_comm_witness :
    (GroupAlgebraElement.mk [1, 1, 0, 0] 4).n = 4 ∧ 0 < 4 ∧
    (GroupAlgebraElement.mul
        (GroupAlgebraElement.mul ⟨[1, 1, 0, 0], 4⟩ ⟨[0, 1, 0, 1], 4⟩) ⟨[1, 0, 1, 1], 4⟩ =
      GroupAlgebraElement.mul ⟨[1, 1, 0, 0], 4⟩
        (GroupAlgebraElement.mul ⟨[0, 1, 0, 1], 4⟩ ⟨[1, 0, 1, 1], 4⟩) ∧
    GroupAlgebraElement.mul ⟨[1, 1, 0, 0], 4⟩ ⟨[0, 1, 0, 1], 4⟩ =
      GroupAlgebraElement.mul ⟨[0, 1, 0, 1], 4⟩ ⟨[1, 1, 0, 0], 4⟩) :=
  ⟨rfl, by decide,
    claim_C7_mul_assoc_comm ⟨[1, 1, 0, 0], 4⟩ ⟨[0, 1, 0, 1], 4⟩ ⟨[1, 0, 1, 1], 4⟩ 4
      rfl rfl rfl (by decide)⟩

/-- C8: a ring-matrix or group-algebra-matrix product whose operand shapes are
incompatible (left column count differs from right row count) fails with the
dimension-mismatch error rather than returning a result. -/
theorem claim_C8_dimension_mismatch (A B : RingMatrix) (GA GB : GroupAlgebraMatrix)
    (hr : A.cols ≠ B.rows) (hg : GA.cols ≠ GB.rows) :
    ringMatMul A B = Except.error "Dimension mismatch" ∧
      gaMatMul GA GB = Except.error "Dimension mismatch" := by
  constructor
  · rw [ringMatMul, if_pos hr]
  · rw [gaMatMul, if_pos hg]

/-- Witness for C8: a 1x2 ring matrix against a 1x1 one, and likewise for
group-algebra matrices. -/
theorem claim_C8_dimension_mismatch_witness :
    (RingMatrix.mk [[⟨[1, 0]⟩, ⟨[0, 1]⟩]]).cols ≠ (RingMatrix.mk [[⟨[1, 0]⟩]]).rows ∧
    (GroupAlgebraMatrix.mk [[⟨[1, 0], 2⟩, ⟨[0, 1], 2⟩]]).cols ≠
      (GroupAlgebraMatrix.mk [[⟨[1, 0], 2⟩]]).rows ∧
    (ringMatMul ⟨[[⟨[1, 0]⟩, ⟨[0, 1]⟩]]⟩ ⟨[[⟨[1, 0]⟩]]⟩ =
        Except.error "Dimension mismatch" ∧
      gaMatMul ⟨[[⟨[1, 0], 2⟩, ⟨[0, 1], 2⟩]]⟩ ⟨[[⟨[1, 0], 2⟩]]⟩ =
        Except.error "Dimension mismatch") :=
  ⟨by decide, by decide,
    claim_C8_dimension_mismatch _ _ _ _ (by decide) (by decide)⟩

lemma zip_take_min {α β : Type} :
    ∀ (l1 : List α) (l2 : List β),
      (l1.take (min l1.length l2.length)).zip l2 = l1.zip l2 := by
  intro l1
  induction l1 with
  | nil => intro l2; simp
  | cons x xs ih =>
    intro l2
    cases l2 with
    | nil => simp
    | cons y ys =>
      simp only [List.length_cons, Nat.succ_min_succ, List.take_succ_cons,
        List.zip_cons_cons]
      rw [ih ys]

/-- C10: `RingLifter.lift` never fails on a length mismatch between the ring
element and the generator images: `zip` truncates, so coefficient positions
beyond the first `min(len(coeffs), len(images))` are silently ignored — the
lift equals the lift of the element truncated to those positions. -/
theorem claim_C10_lift_zip_truncates (lf : RingLifter) (re : RingElement) :
    RingLifter.lift lf re =
      RingLifter.lift lf ⟨re.coeffs.take (min re.coeffs.length lf.images.length)⟩ := by
  rw [RingLifter.lift, RingLifter.lift]
  rw [show (RingElement.mk (re.coeffs.take (min re.coeffs.length lf.images.length))).coeffs
      = re.coeffs.take (min re.coeffs.length lf.images.length) from rfl]
  rw [zip_take_min re.coeffs lf.images]

lemma uint8OfInt_mod_two (c : Int) : uint8OfInt c % 2 = (c % 2).toNat := by
  have h1 : (c % 256) % 2 = c % 2 := Int.emod_emod_of_dvd c (by decide)
  have h2 : (0 : Int) ≤ c % 256 := Int.emod_nonneg c (by decide)
  rw [uint8OfInt]
  omega

lemma zipWith_xor_lt_two :
    ∀ (l1 l2 : List Nat), (∀ v ∈ l1, v < 2) → (∀ v ∈ l2, v < 2) →
      ∀ v ∈ List.zipWith (fun x y => x ^^^ y) l1 l2, v < 2 := by
  intro l1
  induction l1 with
  | nil => intro l2 _ _ v hv; simp at hv
  | cons x xs ih =>
    intro l2 h1 h2 v hv
    cases l2 with
    | nil => simp at hv
    | cons y ys =>
      rw [List.zipWith_cons_cons] at hv
      rcases List.mem_cons.mp hv with h | h
      · subst h
        exact xor_lt_two (h1 x (by simp)) (h2 y (by simp))
      · exact ih ys (fun v hv => h1 v (by simp [hv])) (fun v hv => h2 v (by simp [hv])) v h

lemma ofInts_coeffs (cs : List Int) :
    (RingElement.ofInts cs).coeffs = cs.map (fun c => (c % 2).toNat) := by
  rw [RingElement.ofInts]
  exact List.map_congr_left (fun c _ => uint8OfInt_mod_two c)

lemma gaOfInts_coeffs (cs : List Int) (L : Nat) :
    (GroupAlgebraElement.ofInts cs L).coeffs = cs.map (fun c => (c % 2).toNat) := by
  rw [GroupAlgebraElement.ofInts]
  exact List.map_congr_left (fun c _ => uint8OfInt_mod_two c)

lemma mod_two_map_lt_two (cs : List Int) :
    ∀ v ∈ cs.map (fun c => ((c % 2).toNat : Nat)), v < 2 := by
  intro v hv
  obtain ⟨c, _, rfl⟩ := List.mem_map.mp hv
  omega

lemma lift_lt_two (lf : RingLifter) (re : RingElement)
    (h : ∀ img ∈ lf.images, ∀ v ∈ img.coeffs, v < 2) :
    ∀ v ∈ (RingLifter.lift lf re).coeffs, v < 2 := by
  rw [RingLifter.lift]
  have key : ∀ (l : List (Nat × GroupAlgebraElement)) (z : GroupAlgebraElement),
      (∀ p ∈ l, ∀ v ∈ p.2.coeffs, v < 2) → (∀ v ∈ z.coeffs, v < 2) →
      ∀ v ∈ (l.foldl
        (fun result ci => if ci.1 ≠ 0 then GroupAlgebraElement.add result ci.2 else result)
        z).coeffs, v < 2 := by
    intro l
    induction l with
    | nil => intro z _ hz; exact hz
    | cons p ps ih =>
      intro z hl hz
      rw [List.foldl_cons]
      refine ih _ (fun q hq => hl q (by simp [hq])) ?_
      by_cases hp : p.1 ≠ 0
      · rw [if_pos hp]
        exact zipWith_xor_lt_two _ _ hz (hl p (by simp))
      · rw [if_neg hp]
        exact hz
  refine key _ _ ?_ replicate_lt_two
  rintro ⟨c, img⟩ hp
  exact h img (List.of_mem_zip hp).2

/-- C9: the constructors of `RingElement` and `GroupAlgebraElement` reduce
every supplied integer coefficient modulo 2 (uint8 wraparound mod 256 followed
by `% 2` equals plain mod 2), so stored coefficients are always 0 or 1; XOR
addition, the cross-term `multiply`, the convolution, and the lifter all
preserve the coefficients-in-\x7b0,1\x7d invariant. -/
theorem claim_C9_coeff_invariant :
    (∀ cs : List Int,
      (RingElement.ofInts cs).coeffs = cs.map (fun c => (c % 2).toNat) ∧
      ∀ v ∈ (RingElement.ofInts cs).coeffs, v < 2) ∧
    (∀ (cs : List Int) (L : Nat),
      (GroupAlgebraElement.ofInts cs L).coeffs = cs.map (fun c => (c % 2).toNat) ∧
      (GroupAlgebraElement.ofInts cs L).n = L ∧
      ∀ v ∈ (GroupAlgebraElement.ofInts cs L).coeffs, v < 2) ∧
    (∀ a b : RingElement, (∀ v ∈ a.coeffs, v < 2) → (∀ v ∈ b.coeffs, v < 2) →
      ∀ v ∈ (RingElement.add a b).coeffs, v < 2) ∧
    (∀ a b : RingElement, ∀ v ∈ (multiply a b).coeffs, v < 2) ∧
    (∀ a b : GroupAlgebraElement,
      (∀ v ∈ a.coeffs, v < 2) → (∀ v ∈ b.coeffs, v < 2) →
      ∀ v ∈ (GroupAlgebraElement.add a b).coeffs, v < 2) ∧
    (∀ a b : GroupAlgebraElement, ∀ v ∈ (GroupAlgebraElement.mul a b).coeffs, v < 2) ∧
    (∀ (lf : RingLifter) (re : RingElement),
      (∀ img ∈ lf.images, ∀ v ∈ img.coeffs, v < 2) →
      ∀ v ∈ (RingLifter.lift lf re).coeffs, v < 2) := by
  refine ⟨?_, ?_, ?_, ?_, ?_, ?_, ?_⟩
  · intro cs
    refine ⟨ofInts_coeffs cs, ?_⟩
    rw [ofInts_coeffs cs]
    exact mod_two_map_lt_two cs
  · intro cs L
    refine ⟨gaOfInts_coeffs cs L, rfl, ?_⟩
    rw [gaOfInts_coeffs cs L]
    exact mod_two_map_lt_two cs
  · intro a b h1 h2
    exact zipWith_xor_lt_two a.coeffs b.coeffs h1 h2
  · intro a b
    rw [multiply]
    rw [show (RingElement.ofInts _).coeffs = _ from ofInts_coeffs _]
    exact mod_two_map_lt_two _
  · intro a b h1 h2
    exact zipWith_xor_lt_two a.coeffs b.coeffs h1 h2
  · intro a b
    exact gaMul_lt_two a b
  · intro lf re h
    exact lift_lt_two lf re h

/-- Witness for C9 at concrete inputs (including negative and overlarge
coefficients reduced by the constructor). -/
theorem claim_C9_coeff_invariant_witness :
    (RingElement.ofInts [5, -3, 2]).coeffs = [1, 1, 0] ∧
    (∀ v ∈ (RingElement.add ⟨[1, 0]⟩ ⟨[1, 1]⟩).coeffs, v < 2) ∧
    (∀ v ∈ (GroupAlgebraElement.mul ⟨[1, 1], 2⟩ ⟨[1, 1], 2⟩).coeffs, v < 2) ∧
    (∀ v ∈ (RingLifter.lift ⟨[⟨[1, 0], 2⟩, ⟨[0, 1], 2⟩]⟩ ⟨[1, 1]⟩).coeffs, v < 2) := by
  obtain ⟨h1, _, h3, _, _, h6, h7⟩ := claim_C9_coeff_invariant
  exact ⟨(h1 [5, -3, 2]).1.trans (by decide),
    h3 _ _ (by decide) (by decide),
    h6 _ _,
    h7 _ _ (by decide)⟩

lemma zmod2_add_self (x : ZMod 2) : x + x = 0 := by
  revert x
  decide

lemma css_product_zero {mA nA mB nB : Nat}
    (A : Matrix (Fin mA) (Fin nA) (ZMod 2)) (B : Matrix (Fin mB) (Fin nB) (ZMod 2)) :
    hgpHX A B * (hgpHZ A B)ᵀ = 0 := by
  rw [hgpHX, hgpHZ, Matrix.transpose_fromColumns, Matrix.fromColumns_mul_fromRows]
  simp only [Matrix.kronecker]
  rw [← Matrix.kroneckerMap_transpose, ← Matrix.kroneckerMap_transpose,
    Matrix.transpose_one, Matrix.transpose_one,
    ← Matrix.mul_kronecker_mul, ← Matrix.mul_kronecker_mul,
    Matrix.mul_one, Matrix.one_mul, Matrix.one_mul, Matrix.mul_one]
  ext i j
  simp only [Matrix.add_apply, Matrix.zero_apply]
  exact zmod2_add_self _

lemma hgp_card_cols {mA nA mB nB : Nat} :
    Fintype.card ((Fin nA × Fin nB) ⊕ (Fin mA × Fin mB)) = nA * nB + mA * mB := by
  simp

lemma hgpOf_eq_ok {mA nA mB nB : Nat}
    (A : Matrix (Fin mA) (Fin nA) (ZMod 2)) (B : Matrix (Fin mB) (Fin nB) (ZMod 2)) :
    hgpOf A B = Except.ok (hgpCore A B) := by
  rw [hgpOf, if_pos (css_product_zero A B), if_neg]
  rw [hgp_card_cols]
  omega

/-- C2: any HGP object the constructor returns satisfies CSS orthogonality
`H_X * H_Z^T = 0` over GF(2) (the `_css_condition` check raises instead of
returning an object whose product has a nonzero entry mod 2; in fact the
hypergraph product construction satisfies the condition identically). -/
theorem claim_C2_css_orthogonality {mA nA mB nB : Nat}
    (A : Matrix (Fin mA) (Fin nA) (ZMod 2)) (B : Matrix (Fin mB) (Fin nB) (ZMod 2))
    (r : HGPResult mA nA mB nB) (h : hgpOf A B = Except.ok r) :
    r.H_X * r.H_Zᵀ = 0 := by
  rw [hgpOf_eq_ok A B] at h
  obtain rfl : hgpCore A B = r := by
    injection h
  exact css_product_zero A B

/-- Witness for C2 at the concrete classical check matrix
`A = [[1,1,0],[0,1,1]]`, `B = A^T` from the spec. -/
theorem claim_C2_css_orthogonality_witness :
    hgpOf (Matrix.of ![![1, 1, 0], ![0, 1, 1]] : Matrix (Fin 2) (Fin 3) (ZMod 2))
        (Matrix.of ![![1, 1, 0], ![0, 1, 1]] : Matrix (Fin 2) (Fin 3) (ZMod 2))ᵀ =
      Except.ok (hgpCore (Matrix.of ![![1, 1, 0], ![0, 1, 1]])
        (Matrix.of ![![1, 1, 0], ![0, 1, 1]])ᵀ) ∧
    (hgpCore (Matrix.of ![![1, 1, 0], ![0, 1, 1]] : Matrix (Fin 2) (Fin 3) (ZMod 2))
        (Matrix.of ![![1, 1, 0], ![0, 1, 1]])ᵀ).H_X *
      (hgpCore (Matrix.of ![![1, 1, 0], ![0, 1, 1]] : Matrix (Fin 2) (Fin 3) (ZMod 2))
        (Matrix.of ![![1, 1, 0], ![0, 1, 1]])ᵀ).H_Zᵀ = 0 :=
  ⟨hgpOf_eq_ok _ _, claim_C2_css_orthogonality _ _ _ (hgpOf_eq_ok _ _)⟩

/-- C3: the constructor's `_get_n_` check always passes, `n = mA*mB + nA*nB`,
and `n` equals the column count of both `H_X` and `H_Z` (whose row counts are
`mA*nB` and `nA*mB` respectively); counts of the typed index sets are their
`Fintype` cardinalities. -/
theorem claim_C3_n_matches_shapes {mA nA mB nB : Nat}
    (A : Matrix (Fin mA) (Fin nA) (ZMod 2)) (B : Matrix (Fin mB) (Fin nB) (ZMod 2)) :
    hgpOf A B = Except.ok (hgpCore A B) ∧
    (hgpCore A B).n = mA * mB + nA * nB ∧
    Fintype.card ((Fin nA × Fin nB) ⊕ (Fin mA × Fin mB)) = (hgpCore A B).n ∧
    Fintype.card (Fin mA × Fin nB) = mA * nB ∧
    Fintype.card (Fin nA × Fin mB) = nA * mB := by
  refine ⟨hgpOf_eq_ok A B, rfl, ?_, by simp, by simp⟩
  rw [hgp_card_cols]
  show nA * nB + mA * mB = mA * mB + nA * nB
  exact Nat.add_comm _ _

/-- C4: the constructor succeeds and reports
`k = (nA - rank A)(nB - rank B) + (mA - rank A^T)(mB - rank B^T)` with ranks
computed exactly over GF(2); the final two conjuncts exhibit a matrix of full
rank over the rationals whose GF(2) rank is only 2, the distinction the claim
requires. -/
theorem claim_C4_k_formula {mA nA mB nB : Nat}
    (A : Matrix (Fin mA) (Fin nA) (ZMod 2)) (B : Matrix (Fin mB) (Fin nB) (ZMod 2)) :
    hgpOf A B = Except.ok (hgpCore A B) ∧
    (hgpCore A B).k =
      ((nA : Int) - gf2RankL (matToList A)) * ((nB : Int) - gf2RankL (matToList B)) +
      ((mA : Int) - gf2RankL (matToList Aᵀ)) * ((mB : Int) - gf2RankL (matToList Bᵀ)) ∧
    gf2RankL ([[1, 1, 0], [0, 1, 1], [1, 0, 1]] : List (List (ZMod 2))) = 2 ∧
    (Matrix.of ![![(1 : ℚ), 1, 0], ![0, 1, 1], ![1, 0, 1]]).det ≠ 0 := by
  refine ⟨hgpOf_eq_ok A B, rfl, by decide, ?_⟩
  norm_num [Matrix.det_fin_three, Matrix.vecHead, Matrix.vecTail]

/-- C5: omitting `A` defaults it to `B^T` (and omitting `B` defaults it to
`A^T`), producing exactly the object built from the explicit transpose — same
`H_X`, `H_Z`, `n` and `k` — while omitting both is the missing-input error. -/
theorem claim_C5_optional_defaults :
    (∀ pB : PackedMat,
      HGP_make none (some pB) = HGP_make (some pB.transposeP) (some pB)) ∧
    (∀ pA : PackedMat,
      HGP_make (some pA) none = HGP_make (some pA) (some pA.transposeP)) ∧
    HGP_make none none =
      Except.error "At least one of the matrices A or B must be provided." := by
  refine ⟨?_, ?_, rfl⟩
  · rintro ⟨mB, nB, M⟩
    rfl
  · rintro ⟨mA, nA, M⟩
    rfl

lemma getDmem {α : Type} {l : List α} {j : Nat} (d : α) (h : j < l.length) :
    l.getD j d ∈ l := by
  rw [List.getD_eq_getElem l d h]
  exact List.getElem_mem h

lemma getD_map_range {α : Type} (f : Nat → α) (d : α) {r L : Nat} (h : r < L) :
    ((List.range L).map f).getD r d = f r := by
  rw [List.getD_eq_getElem _ d (by simpa using h)]
  simp

lemma headD_eq_getD_zero {α : Type} (l : List α) (d : α) : l.headD d = l.getD 0 d := by
  cases l <;> rfl

lemma getD_zipWith_xor (l1 l2 : List Nat) {j : Nat} (h1 : j < l1.length)
    (h2 : j < l2.length) :
    (List.zipWith (fun x y => x ^^^ y) l1 l2).getD j 0 =
      (l1.getD j 0) ^^^ (l2.getD j 0) := by
  rw [List.getD_eq_getElem _ 0 (by simp [List.length_zipWith]; omega),
    List.getD_eq_getElem l1 0 h1, List.getD_eq_getElem l2 0 h2]
  simp

lemma gaMatMul_ok (A B : GroupAlgebraMatrix) (h : A.cols = B.rows) :
    gaMatMul A B = Except.ok
      ⟨(List.range A.rows).map (fun i => (List.range B.cols).map
        (fun j => gaProdEntry A B i j))⟩ := by
  rw [gaMatMul, if_neg (not_not_intro h)]
  rfl

lemma isZero_coeff_getD (C : GroupAlgebraMatrix) (hz : C.isZero = true) :
    ∀ i j w, (C.get i j).coeffs.getD w 0 = 0 := by
  intro i j w
  rw [GroupAlgebraMatrix.isZero, List.all_eq_true] at hz
  by_cases hi : i < C.data.length
  · have hrow := hz _ (getDmem [] hi)
    rw [List.all_eq_true] at hrow
    by_cases hj : j < (C.data.getD i []).length
    · have he := hrow _ (getDmem ⟨[], 0⟩ hj)
      rw [List.all_eq_true] at he
      by_cases hw : w < (C.get i j).coeffs.length
      · exact eq_of_beq (he _ (getDmem 0 hw))
      · exact List.getD_eq_default _ 0 (Nat.le_of_not_lt hw)
    · rw [GroupAlgebraMatrix.get, List.getD_eq_default _ _ (Nat.le_of_not_lt hj)]
      rfl
  · rw [GroupAlgebraMatrix.get, List.getD_eq_default _ _ (Nat.le_of_not_lt hi)]
    rfl

lemma wf_get_n {M : GroupAlgebraMatrix} {L : Nat} (hw : M.wf L) {i k : Nat}
    (hi : i < M.rows) (hk : k < M.cols) : (M.get i k).n = L := by
  obtain ⟨_, _, hrect, helem⟩ := hw
  have hrow : M.data.getD i [] ∈ M.data := getDmem [] hi
  have hlen : (M.data.getD i []).length = M.cols := hrect _ hrow
  have hmem : (M.data.getD i []).getD k ⟨[], 0⟩ ∈ M.data.getD i [] :=
    getDmem ⟨[], 0⟩ (by rw [hlen]; exact hk)
  exact helem _ hrow _ hmem

lemma wf_L0 {M : GroupAlgebraMatrix} {L : Nat} (hw : M.wf L) : M.L0 = L :=
  wf_get_n hw hw.1 hw.2.1

lemma bitZ_gaAdd (a b : GroupAlgebraElement) {j : Nat} (hja : j < a.coeffs.length)
    (hjb : j < b.coeffs.length) (h2a : ∀ v ∈ a.coeffs, v < 2)
    (h2b : ∀ v ∈ b.coeffs, v < 2) :
    bitZ ((GroupAlgebraElement.add a b).coeffs.getD j 0) =
      bitZ (a.coeffs.getD j 0) + bitZ (b.coeffs.getD j 0) := by
  rw [GroupAlgebraElement.add]
  rw [show (GroupAlgebraElement.mk (List.zipWith (fun x y => x ^^^ y) a.coeffs b.coeffs)
      a.n).coeffs = List.zipWith (fun x y => x ^^^ y) a.coeffs b.coeffs from rfl]
  rw [getD_zipWith_xor a.coeffs b.coeffs hja hjb]
  exact bitZ_xor (h2a _ (getDmem 0 hja)) (h2b _ (getDmem 0 hjb))

lemma gaProdEntry_spec (A B : GroupAlgebraMatrix) (L : Nat) (hL : 0 < L)
    (hwA : A.wf L) (i j : Nat) (hi : i < A.rows) :
    (gaProdEntry A B i j).coeffs.length = L ∧
    (∀ v ∈ (gaProdEntry A B i j).coeffs, v < 2) ∧
    ∀ w, w < L →
      bitZ ((gaProdEntry A B i j).coeffs.getD w 0) =
        ∑ k ∈ Finset.range A.cols, convSpec (A.get i k) (B.get k j) w := by
  rw [gaProdEntry, wf_L0 hwA]
  suffices h : (∀ m, m ≤ A.cols →
      ((List.range m).foldl
        (fun s k => GroupAlgebraElement.add s
          (GroupAlgebraElement.mul (A.get i k) (B.get k j)))
        ⟨List.replicate L 0, L⟩).coeffs.length = L ∧
      (∀ v ∈ ((List.range m).foldl
        (fun s k => GroupAlgebraElement.add s
          (GroupAlgebraElement.mul (A.get i k) (B.get k j)))
        ⟨List.replicate L 0, L⟩).coeffs, v < 2) ∧
      ∀ w, w < L →
        bitZ (((List.range m).foldl
          (fun s k => GroupAlgebraElement.add s
            (GroupAlgebraElement.mul (A.get i k) (B.get k j)))
          ⟨List.replicate L 0, L⟩).coeffs.getD w 0) =
          ∑ k ∈ Finset.range m, convSpec (A.get i k) (B.get k j) w) by
    exact h A.cols (Nat.le_refl _)
  intro m
  induction m with
  | zero =>
    intro _
    simp only [List.range_zero, List.foldl_nil]
    refine ⟨List.length_replicate _ _, replicate_lt_two, fun w hw => ?_⟩
    rw [getD_replicate hw]
    simp [bitZ]
  | succ m ih =>
    intro hm
    obtain ⟨ihl, ih2, ihb⟩ := ih (Nat.le_of_succ_le hm)
    have hmc : m < A.cols := hm
    have hXn : (A.get i m).n = L := wf_get_n hwA hi hmc
    have hmull : (GroupAlgebraElement.mul (A.get i m) (B.get m j)).coeffs.length = L := by
      rw [gaMul_length, hXn]
    rw [foldl_range_succ]
    refine ⟨?_, ?_, ?_⟩
    · rw [GroupAlgebraElement.add]
      simp only [List.length_zipWith]
      rw [ihl, hmull]
      exact Nat.min_self L
    · exact zipWith_xor_lt_two _ _ ih2 (gaMul_lt_two _ _)
    · intro w hw
      rw [Finset.sum_range_succ,
        bitZ_gaAdd _ _ (by rw [ihl]; exact hw) (by rw [hmull]; exact hw) ih2
          (gaMul_lt_two _ _),
        ihb w hw,
        bitZ_gaMul (A.get i m) (B.get m j) (by rw [hXn]; exact hL)
          (by rw [hXn]; exact hw)]

lemma getD_replicate_gen {α : Type} (x d : α) {n j : Nat} (h : j < n) :
    (List.replicate n x).getD j d = x := by
  rw [List.getD_eq_getElem _ d (by simpa using h)]
  simp

lemma getD_zipWith_gen {α β γ : Type} (f : α → β → γ) (l1 : List α) (l2 : List β)
    (d : γ) (d1 : α) (d2 : β) {j : Nat} (h1 : j < l1.length) (h2 : j < l2.length) :
    (List.zipWith f l1 l2).getD j d = f (l1.getD j d1) (l2.getD j d2) := by
  rw [List.getD_eq_getElem _ d (by simp [List.length_zipWith]; omega),
    List.getD_eq_getElem l1 d1 h1, List.getD_eq_getElem l2 d2 h2]
  simp

lemma mem_zipWith {α β γ : Type} {f : α → β → γ} :
    ∀ {l1 : List α} {l2 : List β} {c : γ}, c ∈ List.zipWith f l1 l2 →
      ∃ a b, a ∈ l1 ∧ b ∈ l2 ∧ c = f a b := by
  intro l1
  induction l1 with
  | nil => intro l2 c hc; simp at hc
  | cons x xs ih =>
    intro l2 c hc
    cases l2 with
    | nil => simp at hc
    | cons y ys =>
      rw [List.zipWith_cons_cons] at hc
      rcases List.mem_cons.mp hc with h | h
      · exact ⟨x, y, by simp, by simp, h⟩
      · obtain ⟨a, b, ha, hb, rfl⟩ := ih h
        exact ⟨a, b, by simp [ha], by simp [hb], rfl⟩

lemma cyclic_permutation_entry {k L r c : Nat} (hr : r < L) (hc : c < L) :
    ((cyclic_permutation k L).getD r []).getD c 0 =
      if (r + k) % L = c then 1 else 0 := by
  rw [cyclic_permutation, getD_map_range _ _ hr, getD_map_range _ _ hc]

lemma cyclic_permutation_wf (k L : Nat) :
    (cyclic_permutation k L).length = L ∧
      ∀ row ∈ cyclic_permutation k L, row.length = L ∧ ∀ v ∈ row, v < 2 := by
  refine ⟨by simp [cyclic_permutation], ?_⟩
  intro row hrow
  obtain ⟨r, _, rfl⟩ := List.mem_map.mp hrow
  refine ⟨by simp, ?_⟩
  intro v hv
  obtain ⟨c, _, rfl⟩ := List.mem_map.mp hv
  by_cases h : (r + k) % L = c <;> simp [h]

lemma matXor_wf {n : Nat} {M N : List (List Nat)}
    (hM : M.length = n ∧ ∀ row ∈ M, row.length = n ∧ ∀ v ∈ row, v < 2)
    (hN : N.length = n ∧ ∀ row ∈ N, row.length = n ∧ ∀ v ∈ row, v < 2) :
    (matXor M N).length = n ∧
      ∀ row ∈ matXor M N, row.length = n ∧ ∀ v ∈ row, v < 2 := by
  constructor
  · rw [matXor, List.length_zipWith, hM.1, hN.1]
    exact Nat.min_self n
  · intro row hrow
    obtain ⟨r1, r2, h1, h2, rfl⟩ := mem_zipWith hrow
    constructor
    · rw [List.length_zipWith, (hM.2 r1 h1).1, (hN.2 r2 h2).1]
      exact Nat.min_self n
    · exact zipWith_xor_lt_two r1 r2 (hM.2 r1 h1).2 (hN.2 r2 h2).2

lemma liftElem_step_wf (e : GroupAlgebraElement) :
    ∀ (M : List (List Nat)) (k : Nat),
      (M.length = e.n ∧ ∀ row ∈ M, row.length = e.n ∧ ∀ v ∈ row, v < 2) →
      ((if e.coeffs.getD k 0 ≠ 0 then matXor M (cyclic_permutation k e.n) else M).length = e.n ∧
        ∀ row ∈ (if e.coeffs.getD k 0 ≠ 0 then matXor M (cyclic_permutation k e.n) else M),
          row.length = e.n ∧ ∀ v ∈ row, v < 2) := by
  intro M k hM
  by_cases hk : e.coeffs.getD k 0 ≠ 0
  · rw [if_pos hk]
    exact matXor_wf hM (cyclic_permutation_wf k e.n)
  · rw [if_neg hk]
    exact hM

lemma zeros_wf (n : Nat) :
    (List.replicate n (List.replicate n (0 : Nat))).length = n ∧
      ∀ row ∈ List.replicate n (List.replicate n (0 : Nat)),
        row.length = n ∧ ∀ v ∈ row, v < 2 := by
  refine ⟨List.length_replicate _ _, ?_⟩
  intro row hrow
  rw [List.eq_of_mem_replicate hrow]
  exact ⟨List.length_replicate _ _, replicate_lt_two⟩

lemma lift_ga_element_wf (e : GroupAlgebraElement) :
    (lift_ga_element e).length = e.n ∧
      ∀ row ∈ lift_ga_element e, row.length = e.n ∧ ∀ v ∈ row, v < 2 := by
  rw [lift_ga_element]
  exact foldl_invariant _ _ (liftElem_step_wf e) (List.range e.coeffs.length) _ (zeros_wf e.n)

lemma bitZ_lift_ga_element (e : GroupAlgebraElement) (hn : 0 < e.n) {r c : Nat}
    (hr : r < e.n) (hc : c < e.n) :
    bitZ (((lift_ga_element e).getD r []).getD c 0) =
      ∑ k ∈ Finset.range e.coeffs.length,
        if (r + k) % e.n = c then bitZ (e.coeffs.getD k 0) else 0 := by
  rw [lift_ga_element]
  suffices h : (∀ m,
      bitZ ((((List.range m).foldl
        (fun M k => if e.coeffs.getD k 0 ≠ 0 then matXor M (cyclic_permutation k e.n) else M)
        (List.replicate e.n (List.replicate e.n 0))).getD r []).getD c 0) =
      ∑ k ∈ Finset.range m,
        if (r + k) % e.n = c then bitZ (e.coeffs.getD k 0) else 0) by
    exact h e.coeffs.length
  intro m
  induction m with
  | zero =>
    simp only [List.range_zero, List.foldl_nil, Finset.range_zero, Finset.sum_empty]
    rw [getD_replicate_gen _ _ hr, getD_replicate_gen _ _ hc]
    rfl
  | succ m ih =>
    rw [foldl_range_succ, Finset.sum_range_succ]
    have hres := foldl_invariant
      (fun (M : List (List Nat)) =>
        M.length = e.n ∧ ∀ row ∈ M, row.length = e.n ∧ ∀ v ∈ row, v < 2) _
      (liftElem_step_wf e) (List.range m) _ (zeros_wf e.n)
    by_cases hk : e.coeffs.getD m 0 ≠ 0
    · rw [if_pos hk, matXor,
        getD_zipWith_gen _ _ _ [] [] []
          (by rw [hres.1]; exact hr) (by rw [(cyclic_permutation_wf m e.n).1]; exact hr),
        getD_zipWith_xor _ _
          (by rw [(hres.2 _ (getDmem [] (by rw [hres.1]; exact hr))).1]; exact hc)
          (by
            rw [((cyclic_permutation_wf m e.n).2 _
              (getDmem [] (by rw [(cyclic_permutation_wf m e.n).1]; exact hr))).1]
            exact hc),
        cyclic_permutation_entry hr hc,
        bitZ_xor
          ((hres.2 _ (getDmem [] (by rw [hres.1]; exact hr))).2 _
            (getDmem 0 (by
              rw [(hres.2 _ (getDmem [] (by rw [hres.1]; exact hr))).1]
              exact hc)))
          (by by_cases hcond : (r + m) % e.n = c <;> simp [hcond]),
        ih, bitZ_of_ne_zero hk]
      by_cases hcond : (r + m) % e.n = c <;> simp [hcond, bitZ]
    · rw [if_neg hk, ih]
      have h0 : bitZ (e.coeffs.getD m 0) = 0 := by
        simp only [ne_eq, not_not] at hk
        rw [hk]
        rfl
      rw [h0]
      simp

lemma lift_to_binary_length (G : GroupAlgebraMatrix) :
    (lift_to_binary G).length = G.rows * G.L0 := by
  simp [lift_to_binary]

lemma lift_to_binary_row_length (G : GroupAlgebraMatrix) {p : Nat}
    (hp : p < G.rows * G.L0) :
    ((lift_to_binary G).getD p []).length = G.cols * G.L0 := by
  simp only [lift_to_binary]
  rw [getD_map_range _ _ hp]
  simp

lemma lift_to_binary_entry (G : GroupAlgebraMatrix) {p q : Nat}
    (hp : p < G.rows * G.L0) (hq : q < G.cols * G.L0) :
    ((lift_to_binary G).getD p []).getD q 0 =
      ((lift_ga_element (G.get (p / G.L0) (q / G.L0))).getD (p % G.L0) []).getD
        (q % G.L0) 0 := by
  simp only [lift_to_binary]
  rw [getD_map_range _ _ hp, getD_map_range _ _ hq]

lemma idx_lt {k s C L : Nat} (hk : k < C) (hs : s < L) : k * L + s < C * L := by
  calc k * L + s < k * L + L := by omega
    _ = (k + 1) * L := by ring
    _ ≤ C * L := Nat.mul_le_mul_right L (Nat.succ_le_of_lt hk)

lemma idx_div {k s L : Nat} (hL : 0 < L) (hs : s < L) : (k * L + s) / L = k := by
  rw [Nat.add_comm, Nat.mul_comm, Nat.add_mul_div_left s k hL,
    Nat.div_eq_of_lt hs, Nat.zero_add]

lemma idx_mod {k s L : Nat} (hs : s < L) : (k * L + s) % L = s := by
  rw [Nat.add_comm, Nat.add_mul_mod_self_right, Nat.mod_eq_of_lt hs]

lemma sum_range_mul (C L : Nat) (f : Nat → ZMod 2) :
    ∑ t ∈ Finset.range (C * L), f t =
      ∑ k ∈ Finset.range C, ∑ s ∈ Finset.range L, f (k * L + s) := by
  induction C with
  | zero => simp
  | succ C ih =>
    rw [Nat.succ_mul, Finset.sum_range_add, ih, Finset.sum_range_succ]

lemma iteMulIte (P Q : Prop) [Decidable P] [Decidable Q] (x y : ZMod 2) :
    (if P then x else 0) * (if Q then y else 0) =
      if P then (if Q then x * y else 0) else 0 := by
  by_cases hP : P <;> by_cases hQ : Q <;> simp [hP, hQ]

lemma lift_to_binary_lt_two (G : GroupAlgebraMatrix) {L : Nat} (hL : 0 < L)
    (hw : G.wf L) {p q : Nat} (hp : p < G.rows * L) (hq : q < G.cols * L) :
    ((lift_to_binary G).getD p []).getD q 0 < 2 := by
  have hL0 : G.L0 = L := wf_L0 hw
  rw [lift_to_binary_entry G (by rw [hL0]; exact hp) (by rw [hL0]; exact hq), hL0]
  have hi : p / L < G.rows := (Nat.div_lt_iff_lt_mul hL).mpr hp
  have hj : q / L < G.cols := (Nat.div_lt_iff_lt_mul hL).mpr hq
  have hn : (G.get (p / L) (q / L)).n = L := wf_get_n hw hi hj
  have hwf := lift_ga_element_wf (G.get (p / L) (q / L))
  have hrmem : (lift_ga_element (G.get (p / L) (q / L))).getD (p % L) [] ∈
      lift_ga_element (G.get (p / L) (q / L)) :=
    getDmem [] (by rw [hwf.1, hn]; exact Nat.mod_lt _ hL)
  have hrow := hwf.2 _ hrmem
  exact hrow.2 _ (getDmem 0 (by rw [hrow.1, hn]; exact Nat.mod_lt _ hL))

lemma sum_rot3 {α β γ : Type} (s1 : Finset α) (s2 : Finset β) (s3 : Finset γ)
    (g : α → β → γ → ZMod 2) :
    (∑ u ∈ s1, ∑ v ∈ s2, ∑ w ∈ s3, g u v w) =
      ∑ w ∈ s3, ∑ u ∈ s1, ∑ v ∈ s2, g u v w := by
  calc (∑ u ∈ s1, ∑ v ∈ s2, ∑ w ∈ s3, g u v w)
      = ∑ u ∈ s1, ∑ w ∈ s3, ∑ v ∈ s2, g u v w :=
        Finset.sum_congr rfl (fun u _ => Finset.sum_comm)
    _ = ∑ w ∈ s3, ∑ u ∈ s1, ∑ v ∈ s2, g u v w := Finset.sum_comm

lemma inner_k_transform (e f : GroupAlgebraElement) (L : Nat) (hL : 0 < L)
    (hen : e.n = L) (r c : Nat) :
    (∑ s ∈ Finset.range L,
      (∑ u ∈ Finset.range e.coeffs.length,
        if (r + u) % L = s then bitZ (e.coeffs.getD u 0) else 0) *
      (∑ v ∈ Finset.range f.coeffs.length,
        if (s + v) % L = c then bitZ (f.coeffs.getD v 0) else 0)) =
    ∑ w ∈ Finset.range L, (if (r + w) % L = c then convSpec e f w else 0) := by
  have lhs_eq : (∑ s ∈ Finset.range L,
      (∑ u ∈ Finset.range e.coeffs.length,
        if (r + u) % L = s then bitZ (e.coeffs.getD u 0) else 0) *
      (∑ v ∈ Finset.range f.coeffs.length,
        if (s + v) % L = c then bitZ (f.coeffs.getD v 0) else 0)) =
      ∑ u ∈ Finset.range e.coeffs.length, ∑ v ∈ Finset.range f.coeffs.length,
        if (r + (u + v)) % L = c then
          bitZ (e.coeffs.getD u 0) * bitZ (f.coeffs.getD v 0) else 0 := by
    calc
      (∑ s ∈ Finset.range L,
        (∑ u ∈ Finset.range e.coeffs.length,
          if (r + u) % L = s then bitZ (e.coeffs.getD u 0) else 0) *
        (∑ v ∈ Finset.range f.coeffs.length,
          if (s + v) % L = c then bitZ (f.coeffs.getD v 0) else 0))
        = ∑ s ∈ Finset.range L, ∑ u ∈ Finset.range e.coeffs.length,
            ∑ v ∈ Finset.range f.coeffs.length,
            if (r + u) % L = s then
              (if (s + v) % L = c then
                bitZ (e.coeffs.getD u 0) * bitZ (f.coeffs.getD v 0) else 0) else 0 := by
          refine Finset.sum_congr rfl fun s _ => ?_
          rw [Finset.sum_mul_sum]
          exact Finset.sum_congr rfl fun u _ => Finset.sum_congr rfl fun v _ =>
            iteMulIte _ _ _ _
      _ = ∑ u ∈ Finset.range e.coeffs.length, ∑ v ∈ Finset.range f.coeffs.length,
            ∑ s ∈ Finset.range L,
            if (r + u) % L = s then
              (if (s + v) % L = c then
                bitZ (e.coeffs.getD u 0) * bitZ (f.coeffs.getD v 0) else 0) else 0 := by
          rw [Finset.sum_comm]
          exact Finset.sum_congr rfl fun u _ => Finset.sum_comm
      _ = ∑ u ∈ Finset.range e.coeffs.length, ∑ v ∈ Finset.range f.coeffs.length,
            if (r + (u + v)) % L = c then
              bitZ (e.coeffs.getD u 0) * bitZ (f.coeffs.getD v 0) else 0 := by
          refine Finset.sum_congr rfl fun u _ => Finset.sum_congr rfl fun v _ => ?_
          rw [sumCollapseMod hL (r + u)
            (fun s => if (s + v) % L = c then
              bitZ (e.coeffs.getD u 0) * bitZ (f.coeffs.getD v 0) else 0),
            Nat.mod_add_mod, Nat.add_assoc]
  rw [lhs_eq]
  calc
    (∑ u ∈ Finset.range e.coeffs.length, ∑ v ∈ Finset.range f.coeffs.length,
      if (r + (u + v)) % L = c then
        bitZ (e.coeffs.getD u 0) * bitZ (f.coeffs.getD v 0) else 0)
      = ∑ u ∈ Finset.range e.coeffs.length, ∑ v ∈ Finset.range f.coeffs.length,
          ∑ w ∈ Finset.range L,
          if (u + v) % L = w then
            (if (r + w) % L = c then
              bitZ (e.coeffs.getD u 0) * bitZ (f.coeffs.getD v 0) else 0) else 0 := by
        refine Finset.sum_congr rfl fun u _ => Finset.sum_congr rfl fun v _ => ?_
        rw [sumCollapseMod hL (u + v)
          (fun w => if (r + w) % L = c then
            bitZ (e.coeffs.getD u 0) * bitZ (f.coeffs.getD v 0) else 0),
          Nat.add_mod_mod]
    _ = ∑ w ∈ Finset.range L, ∑ u ∈ Finset.range e.coeffs.length,
          ∑ v ∈ Finset.range f.coeffs.length,
          if (u + v) % L = w then
            (if (r + w) % L = c then
              bitZ (e.coeffs.getD u 0) * bitZ (f.coeffs.getD v 0) else 0) else 0 :=
        sum_rot3 _ _ _ _
    _ = ∑ w ∈ Finset.range L, (if (r + w) % L = c then convSpec e f w else 0) := by
        refine Finset.sum_congr rfl fun w _ => ?_
        rw [convSpec, hen, itePushSum]
        refine Finset.sum_congr rfl fun u _ => ?_
        rw [itePushSum]
        exact Finset.sum_congr rfl fun v _ => iteSwapZero _ _ _

lemma binary_entry_zero (GA GB : GroupAlgebraMatrix) (L : Nat) (hL : 0 < L)
    (hwA : GA.wf L) (hwB : GB.wf L) (hcols : GA.cols = GB.rows)
    (hzero : ∀ i j w, i < GA.rows → j < GB.cols →
      (gaProdEntry GA GB i j).coeffs.getD w 0 = 0)
    {p q : Nat} (hp : p < GA.rows * L) (hq : q < GB.cols * L) :
    (∑ t ∈ Finset.range (GA.cols * L),
      bitZ (((lift_to_binary GA).getD p []).getD t 0) *
        bitZ (((lift_to_binary GB).getD t []).getD q 0)) = 0 := by
  have hLA : GA.L0 = L := wf_L0 hwA
  have hLB : GB.L0 = L := wf_L0 hwB
  have hi : p / L < GA.rows := (Nat.div_lt_iff_lt_mul hL).mpr hp
  have hj : q / L < GB.cols := (Nat.div_lt_iff_lt_mul hL).mpr hq
  have hr : p % L < L := Nat.mod_lt _ hL
  have hcq : q % L < L := Nat.mod_lt _ hL
  rw [sum_range_mul]
  have hterm : ∀ k ∈ Finset.range GA.cols, ∀ s ∈ Finset.range L,
      bitZ (((lift_to_binary GA).getD p []).getD (k * L + s) 0) *
        bitZ (((lift_to_binary GB).getD (k * L + s) []).getD q 0) =
      (∑ u ∈ Finset.range (GA.get (p / L) k).coeffs.length,
        if (p % L + u) % L = s then bitZ ((GA.get (p / L) k).coeffs.getD u 0) else 0) *
      (∑ v ∈ Finset.range (GB.get k (q / L)).coeffs.length,
        if (s + v) % L = q % L then bitZ ((GB.get k (q / L)).coeffs.getD v 0) else 0) := by
    intro k hk s hs
    rw [Finset.mem_range] at hk hs
    have hkL : k * L + s < GA.cols * L := idx_lt hk hs
    have henA : (GA.get (p / L) k).n = L := wf_get_n hwA hi hk
    have henB : (GB.get k (q / L)).n = L :=
      wf_get_n hwB (by rw [← hcols]; exact hk) hj
    rw [lift_to_binary_entry GA (by rw [hLA]; exact hp) (by rw [hLA]; exact hkL),
      lift_to_binary_entry GB (by rw [hLB, ← hcols]; exact hkL) (by rw [hLB]; exact hq),
      hLA, hLB, idx_div hL hs, idx_mod hs,
      bitZ_lift_ga_element _ (by rw [henA]; exact hL) (by rw [henA]; exact hr)
        (by rw [henA]; exact hs),
      bitZ_lift_ga_element _ (by rw [henB]; exact hL) (by rw [henB]; exact hs)
        (by rw [henB]; exact hcq),
      henA, henB]
  rw [Finset.sum_congr rfl
    (fun k hk => Finset.sum_congr rfl (fun s hs => hterm k hk s hs))]
  have hinner : ∀ k ∈ Finset.range GA.cols,
      (∑ s ∈ Finset.range L,
        (∑ u ∈ Finset.range (GA.get (p / L) k).coeffs.length,
          if (p % L + u) % L = s then bitZ ((GA.get (p / L) k).coeffs.getD u 0) else 0) *
        (∑ v ∈ Finset.range (GB.get k (q / L)).coeffs.length,
          if (s + v) % L = q % L then bitZ ((GB.get k (q / L)).coeffs.getD v 0) else 0)) =
      ∑ w ∈ Finset.range L,
        (if (p % L + w) % L = q % L then
          convSpec (GA.get (p / L) k) (GB.get k (q / L)) w else 0) := by
    intro k hk
    rw [Finset.mem_range] at hk
    exact inner_k_transform _ _ L hL (wf_get_n hwA hi hk) (p % L) (q % L)
  rw [Finset.sum_congr rfl hinner, Finset.sum_comm]
  have hwterm : ∀ w ∈ Finset.range L,
      (∑ k ∈ Finset.range GA.cols,
        if (p % L + w) % L = q % L then
          convSpec (GA.get (p / L) k) (GB.get k (q / L)) w else 0) = 0 := by
    intro w hw
    rw [Finset.mem_range] at hw
    rw [← itePushSum]
    have hsum : (∑ k ∈ Finset.range GA.cols,
        convSpec (GA.get (p / L) k) (GB.get k (q / L)) w) = 0 := by
      rw [← (gaProdEntry_spec GA GB L hL hwA (p / L) (q / L) hi).2.2 w hw,
        hzero (p / L) (q / L) w hi hj]
      rfl
    rw [hsum]
    simp
  rw [Finset.sum_congr rfl hwterm]
  simp

/-- C6: the regular-representation lift preserves zero products: if the
product of two well-formed group-algebra matrices (compatible shapes, common
group order `L`) is zero in the group algebra, then the ordinary binary
matrix product of their `lift_to_binary` images is entrywise zero modulo 2. -/
theorem claim_C6_lift_preserves_zero_product (GA GB : GroupAlgebraMatrix)
    (L : Nat) (hL : 0 < L) (hwA : GA.wf L) (hwB : GB.wf L)
    (hcols : GA.cols = GB.rows) (C : GroupAlgebraMatrix)
    (hok : gaMatMul GA GB = Except.ok C) (hz : C.isZero = true) :
    binZeroMod2 (natMatMul (lift_to_binary GA) (lift_to_binary GB)) = true := by
  have hLA : GA.L0 = L := wf_L0 hwA
  have hLB : GB.L0 = L := wf_L0 hwB
  rw [gaMatMul_ok GA GB hcols] at hok
  have hC : C = ⟨(List.range GA.rows).map (fun i => (List.range GB.cols).map
      (fun j => gaProdEntry GA GB i j))⟩ := (Except.ok.inj hok).symm
  subst hC
  have hzero : ∀ i j w, i < GA.rows → j < GB.cols →
      (gaProdEntry GA GB i j).coeffs.getD w 0 = 0 := by
    intro i j w hi hj
    have h := isZero_coeff_getD _ hz i j w
    rw [GroupAlgebraMatrix.get] at h
    rw [show (GroupAlgebraMatrix.mk ((List.range GA.rows).map
        (fun i => (List.range GB.cols).map (fun j => gaProdEntry GA GB i j)))).data
      = (List.range GA.rows).map
        (fun i => (List.range GB.cols).map (fun j => gaProdEntry GA GB i j)) from rfl,
      getD_map_range _ _ hi, getD_map_range _ _ hj] at h
    exact h
  rw [binZeroMod2, List.all_eq_true]
  intro row hrow
  rw [List.all_eq_true]
  intro v hv
  simp only [natMatMul] at hrow
  obtain ⟨ar, har, rfl⟩ := List.mem_map.mp hrow
  obtain ⟨q, hqmem, rfl⟩ := List.mem_map.mp hv
  rw [List.mem_range] at hqmem
  obtain ⟨p, hp, hpe⟩ := List.mem_iff_getElem.mp har
  have hare : ar = (lift_to_binary GA).getD p [] := by
    rw [List.getD_eq_getElem _ _ hp, hpe]
  subst hare
  have hplen : p < GA.rows * L := by
    rw [← hLA, ← lift_to_binary_length GA]
    exact hp
  have hW : ((lift_to_binary GB).headD []).length = GB.cols * L := by
    rw [headD_eq_getD_zero,
      lift_to_binary_row_length GB (by
        rw [hLB]
        exact Nat.mul_pos hwB.1 hL), hLB]
  have hq : q < GB.cols * L := by
    rw [← hW]
    exact hqmem
  have hBlen : (lift_to_binary GB).length = GB.rows * L := by
    rw [lift_to_binary_length GB, hLB]
  rw [beq_iff_eq]
  rw [foldl_add_sum
    (fun k => ((lift_to_binary GA).getD p []).getD k 0 *
      (((lift_to_binary GB).getD k []).getD q 0)) 0 (lift_to_binary GB).length,
    Nat.zero_add]
  have hcast : ((∑ k ∈ Finset.range (lift_to_binary GB).length,
      ((lift_to_binary GA).getD p []).getD k 0 *
        (((lift_to_binary GB).getD k []).getD q 0) : Nat) : ZMod 2) = 0 := by
    rw [Nat.cast_sum]
    have hterm : ∀ k ∈ Finset.range (lift_to_binary GB).length,
        ((((lift_to_binary GA).getD p []).getD k 0 *
          (((lift_to_binary GB).getD k []).getD q 0) : Nat) : ZMod 2) =
        bitZ (((lift_to_binary GA).getD p []).getD k 0) *
          bitZ (((lift_to_binary GB).getD k []).getD q 0) := by
      intro k hk
      rw [Finset.mem_range, hBlen] at hk
      have hkA : k < GA.cols * L := by rw [hcols]; exact hk
      rw [Nat.cast_mul,
        ← bitZ_of_lt_two (lift_to_binary_lt_two GA hL hwA hplen hkA),
        ← bitZ_of_lt_two (lift_to_binary_lt_two GB hL hwB hk hq)]
    rw [Finset.sum_congr rfl hterm, hBlen, ← hcols]
    exact binary_entry_zero GA GB L hL hwA hwB hcols hzero hplen hq
  have hdvd := (ZMod.natCast_zmod_eq_zero_iff_dvd _ 2).mp hcast
  omega

/-- Witness for C6 at the concrete `L = 4` scenario
(`GA = [[g, g^3]]`, `GB = [[g^3], [g]]`, whose product is zero). -/
theorem claim_C6_lift_preserves_zero_product_witness :
    (0 : Nat) < 4 ∧
    (GroupAlgebraMatrix.mk [[⟨[0, 1, 0, 0], 4⟩, ⟨[0, 0, 0, 1], 4⟩]]).wf 4 ∧
    (GroupAlgebraMatrix.mk [[⟨[0, 0, 0, 1], 4⟩], [⟨[0, 1, 0, 0], 4⟩]]).wf 4 ∧
    (GroupAlgebraMatrix.mk [[⟨[0, 1, 0, 0], 4⟩, ⟨[0, 0, 0, 1], 4⟩]]).cols =
      (GroupAlgebraMatrix.mk [[⟨[0, 0, 0, 1], 4⟩], [⟨[0, 1, 0, 0], 4⟩]]).rows ∧
    gaMatMul ⟨[[⟨[0, 1, 0, 0], 4⟩, ⟨[0, 0, 0, 1], 4⟩]]⟩
        ⟨[[⟨[0, 0, 0, 1], 4⟩], [⟨[0, 1, 0, 0], 4⟩]]⟩ =
      Except.ok ⟨[[⟨[0, 0, 0, 0], 4⟩]]⟩ ∧
    (GroupAlgebraMatrix.mk [[⟨[0, 0, 0, 0], 4⟩]]).isZero = true ∧
    binZeroMod2 (natMatMul
      (lift_to_binary ⟨[[⟨[0, 1, 0, 0], 4⟩, ⟨[0, 0, 0, 1], 4⟩]]⟩)
      (lift_to_binary ⟨[[⟨[0, 0, 0, 1], 4⟩], [⟨[0, 1, 0, 0], 4⟩]]⟩)) = true := by
  have hwA : (GroupAlgebraMatrix.mk [[⟨[0, 1, 0, 0], 4⟩, ⟨[0, 0, 0, 1], 4⟩]]).wf 4 := by
    unfold GroupAlgebraMatrix.wf
    decide
  have hwB : (GroupAlgebraMatrix.mk [[⟨[0, 0, 0, 1], 4⟩], [⟨[0, 1, 0, 0], 4⟩]]).wf 4 := by
    unfold GroupAlgebraMatrix.wf
    decide
  have hok : gaMatMul ⟨[[⟨[0, 1, 0, 0], 4⟩, ⟨[0, 0, 0, 1], 4⟩]]⟩
      ⟨[[⟨[0, 0, 0, 1], 4⟩], [⟨[0, 1, 0, 0], 4⟩]]⟩ =
      Except.ok ⟨[[⟨[0, 0, 0, 0], 4⟩]]⟩ := by rfl
  exact ⟨by decide, hwA, hwB, by decide, hok, by decide,
    claim_C6_lift_preserves_zero_product _ _ 4 (by decide) hwA hwB (by decide) _ hok
      (by decide)⟩

/-- C1: the concrete scenario (`L = 4`, `x = [1,0]`, `y = [0,1]`,
`A = [[x, y]]`, `B = [[y], [x]]`, images `g = [0,1,0,0]`, `g^-1 = [0,0,0,1]`).
The claim says the LPC constructor completes without error; in fact the LPC
module never imports `lift_to_binary`, so the constructor raises `NameError`
at the binary stage and never completes. The first three conjuncts evaluate
the code at exactly this input and show the algebraic content the claim
lists does hold — `A @ B` is zero abstractly, its lift to the group algebra
is zero, and the binary lifts (the algebra module's own `lift_to_binary`)
multiply to zero mod 2 — so the missing import is the only obstruction; the
last conjunct is the constructor's actual outcome. -/
theorem claim_C1_concrete_pipeline :
    (∃ P : RingMatrix, ringMatMul A_ring_ex B_ring_ex = Except.ok P ∧
      P.isZero = true) ∧
    (∃ Q : GroupAlgebraMatrix, gaMatMul GA_ex GB_ex = Except.ok Q ∧
      Q.isZero = true) ∧
    binZeroMod2 (natMatMul (lift_to_binary GA_ex) (lift_to_binary GB_ex)) = true ∧
    mkLPC A_ring_ex B_ring_ex [gEx, gInvEx] =
      Except.error "NameError: name lift_to_binary is not defined" :=
  ⟨⟨⟨[[⟨[0, 0]⟩]]⟩, by rfl, by decide⟩,
    ⟨⟨[[⟨[0, 0, 0, 0], 4⟩]]⟩, by rfl, by decide⟩,
    by decide, by rfl⟩
